import Mathlib

/-!
Verification of the easy-llm-tools engine against its specification.

The development shallowly embeds the Python sources:
 - `_json_utils.py`  : `is_valid_json`, `prettify_json` (token-minimizing
   canonicalization via array placeholders);
 - `_tools_finder.py`: `find_tools_json` (depth-bounded, stack-based scan,
   candidate filtering, dynamic load, extraction, registry build);
 - `llm_tools.py`    : `run_tool` (payload resolution, lookup, dispatch).

JSON values are modelled by the inductive `JVal` (numbers restricted to
integers; floats are out of scope).  Strings are modelled as `List Char`.
`json.loads` is modelled by a fuel-based recursive-descent parser `loads`,
`json.dumps` by `dumpsCompact` (separators ("," ":")) and `dumpsIndent`
(indent=1, separators ("," ": ")), matching CPython's output shape with
ensure_ascii=False.  The uuid-based placeholder generator is modelled by an
explicit token-sequence parameter constrained exactly by the generator's
retry guard (token not a substring of the input text, tokens pairwise
distinct).  Filesystems are modelled by the inductive `FSEntry`; loading a
module is modelled by the file's `LoadResult` field; executed (loaded) files
and visited directories are recorded in traces so that temporal claims
("never loads", "never visits") are statable.
-/

/-- Strings of the embedding: Python `str` as a list of characters. -/
abbrev Str := List Char

/-- A JSON value as produced by `json.loads`: objects keep key order
(association list), numbers are restricted to integers. -/
inductive JVal where
  | null
  | bool (b : Bool)
  | num (n : Int)
  | str (s : Str)
  | arr (xs : List JVal)
  | obj (kvs : List (Str × JVal))
deriving Repr

mutual
/-- Structural (deep) equality test on JSON values. -/
def jeq : JVal → JVal → Bool
  | .null, .null => true
  | .bool a, .bool b => a = b
  | .num a, .num b => a = b
  | .str a, .str b => a = b
  | .arr a, .arr b => jeqItems a b
  | .obj a, .obj b => jeqPairs a b
  | _, _ => false

/-- Elementwise equality of JSON arrays. -/
def jeqItems : List JVal → List JVal → Bool
  | [], [] => true
  | a :: as', b :: bs => jeq a b && jeqItems as' bs
  | _, _ => false

/-- Memberwise equality of JSON objects (key order significant). -/
def jeqPairs : List (Str × JVal) → List (Str × JVal) → Bool
  | [], [] => true
  | (k, v) :: as', (k', v') :: bs => k = k' && jeq v v' && jeqPairs as' bs
  | _, _ => false
end

mutual
theorem jeq_eq : ∀ a b : JVal, jeq a b = true → a = b
  | .null, .null, _ => rfl
  | .bool _, .bool _, h => by
      simp only [jeq, decide_eq_true_eq] at h; rw [h]
  | .num _, .num _, h => by
      simp only [jeq, decide_eq_true_eq] at h; rw [h]
  | .str _, .str _, h => by
      simp only [jeq, decide_eq_true_eq] at h; rw [h]
  | .arr a, .arr b, h => by
      simp only [jeq] at h; rw [jeqItems_eq a b h]
  | .obj a, .obj b, h => by
      simp only [jeq] at h; rw [jeqPairs_eq a b h]
  | .null, .bool _, h | .null, .num _, h | .null, .str _, h
  | .null, .arr _, h | .null, .obj _, h
  | .bool _, .null, h | .bool _, .num _, h | .bool _, .str _, h
  | .bool _, .arr _, h | .bool _, .obj _, h
  | .num _, .null, h | .num _, .bool _, h | .num _, .str _, h
  | .num _, .arr _, h | .num _, .obj _, h
  | .str _, .null, h | .str _, .bool _, h | .str _, .num _, h
  | .str _, .arr _, h | .str _, .obj _, h
  | .arr _, .null, h | .arr _, .bool _, h | .arr _, .num _, h
  | .arr _, .str _, h | .arr _, .obj _, h
  | .obj _, .null, h | .obj _, .bool _, h | .obj _, .num _, h
  | .obj _, .str _, h | .obj _, .arr _, h => by simp [jeq] at h

theorem jeqItems_eq : ∀ a b : List JVal, jeqItems a b = true → a = b
  | [], [], _ => rfl
  | x :: xs, y :: ys, h => by
      simp only [jeqItems, Bool.and_eq_true] at h
      rw [jeq_eq x y h.1, jeqItems_eq xs ys h.2]
  | [], _ :: _, h | _ :: _, [], h => by simp [jeqItems] at h

theorem jeqPairs_eq : ∀ a b : List (Str × JVal), jeqPairs a b = true → a = b
  | [], [], _ => rfl
  | (k, v) :: xs, (k', v') :: ys, h => by
      simp only [jeqPairs, Bool.and_eq_true, decide_eq_true_eq] at h
      rw [h.1.1, jeq_eq v v' h.1.2, jeqPairs_eq xs ys h.2]
  | [], _ :: _, h | _ :: _, [], h => by simp [jeqPairs] at h
end

mutual
theorem jeq_refl : ∀ a : JVal, jeq a a = true
  | .null => rfl
  | .bool _ => by simp [jeq]
  | .num _ => by simp [jeq]
  | .str _ => by simp [jeq]
  | .arr a => by simp only [jeq]; exact jeqItems_refl a
  | .obj a => by simp only [jeq]; exact jeqPairs_refl a

theorem jeqItems_refl : ∀ a : List JVal, jeqItems a a = true
  | [] => rfl
  | x :: xs => by
      simp only [jeqItems, Bool.and_eq_true]
      exact ⟨jeq_refl x, jeqItems_refl xs⟩

theorem jeqPairs_refl : ∀ a : List (Str × JVal), jeqPairs a a = true
  | [] => rfl
  | (k, v) :: xs => by
      simp only [jeqPairs, Bool.and_eq_true, decide_eq_true_eq]
      exact ⟨⟨by trivial, jeq_refl v⟩, jeqPairs_refl xs⟩
end

instance : DecidableEq JVal := fun a b =>
  decidable_of_iff (jeq a b = true) ⟨jeq_eq a b, fun h => h ▸ jeq_refl a⟩

/-- Python `dict` lookup (`d.get(k)` / `d[k]`). -/
def lookupAssoc {α : Type} (kvs : List (Str × α)) (k : Str) : Option α :=
  match kvs with
  | [] => none
  | (k', v) :: rest => if k' = k then some v else lookupAssoc rest k

/-- Python `dict` assignment `d[k] = v`: replace in place if the key exists
(keeping its position), otherwise append. -/
def dictInsert {α : Type} (kvs : List (Str × α)) (k : Str) (v : α) : List (Str × α) :=
  match kvs with
  | [] => [(k, v)]
  | (k', v') :: rest =>
      if k' = k then (k', v) :: rest else (k', v') :: dictInsert rest k v

/-- Python `k in d` on an association list. -/
def containsKey {α : Type} (kvs : List (Str × α)) (k : Str) : Bool :=
  (lookupAssoc kvs k).isSome

/-- Keys of an association list. -/
def assocKeys {α : Type} (kvs : List (Str × α)) : List Str := kvs.map Prod.fst

/-- Characters `json.loads` treats as whitespace. -/
def isJsonWs (c : Char) : Bool := c = ' ' || c = '\t' || c = '\n' || c = '\r'

/-- Drop leading JSON whitespace. -/
def wsDrop : Str → Str
  | [] => []
  | c :: cs => if isJsonWs c then wsDrop cs else c :: cs

/-- Decimal digit test. -/
def isDig (c : Char) : Bool := '0' ≤ c && c ≤ '9'

/-- The character of a decimal digit. -/
def digCh (n : Nat) : Char := Char.ofNat ('0'.toNat + n)

/-- Decimal digits of `n`, most significant first, in front of `acc`;
fuel-based so that the kernel can evaluate it (any `fu` with `n < 10 ^ fu`
and `0 < fu` gives the digits of `n`). -/
def natDigsF : Nat → Nat → Str → Str
  | 0, _, acc => acc
  | fu + 1, n, acc =>
      if n < 10 then digCh n :: acc
      else natDigsF fu (n / 10) (digCh (n % 10) :: acc)

/-- Decimal digits of `n`, most significant first (mirrors CPython's
integer repr). -/
def natDigs (n : Nat) : Str := natDigsF (n + 1) n []

/-- `repr` of a Python int: sign, then decimal digits. -/
def intDump (i : Int) : Str :=
  if i < 0 then '-' :: natDigs i.natAbs else natDigs i.natAbs

/-- Lower-case hex digit character. -/
def hexCh (n : Nat) : Char :=
  if n < 10 then Char.ofNat ('0'.toNat + n) else Char.ofNat ('a'.toNat + (n - 10))

/-- JSON escape of one character, as emitted by `json.dumps` with
`ensure_ascii=False`: quote, backslash and the five short control escapes,
`\u00XX` for the remaining control characters, everything else verbatim. -/
def escCh (c : Char) : Str :=
  if c = '"' then ['\\', '"']
  else if c = '\\' then ['\\', '\\']
  else if c = '\n' then ['\\', 'n']
  else if c = '\t' then ['\\', 't']
  else if c = '\r' then ['\\', 'r']
  else if c = Char.ofNat 8 then ['\\', 'b']
  else if c = Char.ofNat 12 then ['\\', 'f']
  else if c.toNat < 32 then
    ['\\', 'u', '0', '0', hexCh (c.toNat / 16), hexCh (c.toNat % 16)]
  else [c]

/-- JSON escape of a whole string body. -/
def escStr : Str → Str
  | [] => []
  | c :: cs => escCh c ++ escStr cs

/-- A serialized JSON string literal: quoted escaped body. -/
def strDump (s : Str) : Str := '"' :: (escStr s ++ ['"'])

mutual
/-- `json.dumps(v, ensure_ascii=False, separators=(",", ":"))`: fully
compact single-line serialization (used for array placeholders). -/
def dumpsCompact : JVal → Str
  | .null => "null".toList
  | .bool true => "true".toList
  | .bool false => "false".toList
  | .num n => intDump n
  | .str s => strDump s
  | .arr xs => '[' :: (dumpsItems xs ++ [']'])
  | .obj kvs => '{' :: (dumpsPairs kvs ++ ['}'])

/-- Comma-joined compact serialization of array elements. -/
def dumpsItems : List JVal → Str
  | [] => []
  | [x] => dumpsCompact x
  | x :: y :: rest => dumpsCompact x ++ ',' :: dumpsItems (y :: rest)

/-- Comma-joined compact serialization of object members (`"k":v`). -/
def dumpsPairs : List (Str × JVal) → Str
  | [] => []
  | [(k, v)] => strDump k ++ ':' :: dumpsCompact v
  | (k, v) :: p :: rest => strDump k ++ ':' :: dumpsCompact v ++ ',' :: dumpsPairs (p :: rest)
end

/-- `d` spaces of indentation. -/
def indSp (d : Nat) : Str := List.replicate d ' '

mutual
/-- `json.dumps(v, indent=1, ensure_ascii=False, separators=(",", ": "))`:
objects and arrays one entry per line, one extra space per nesting level,
`": "` after keys, `","` plus newline between entries. -/
def dumpsIndent (d : Nat) : JVal → Str
  | .null => "null".toList
  | .bool true => "true".toList
  | .bool false => "false".toList
  | .num n => intDump n
  | .str s => strDump s
  | .arr [] => ['[', ']']
  | .arr (x :: xs) =>
      '[' :: '\n' :: (indItems d (x :: xs) ++ '\n' :: (indSp d ++ [']']))
  | .obj [] => ['{', '}']
  | .obj (p :: ps) =>
      '{' :: '\n' :: (indPairs d (p :: ps) ++ '\n' :: (indSp d ++ ['}']))

/-- Indented array entries, `",\n"`-joined, each at depth `d+1`. -/
def indItems (d : Nat) : List JVal → Str
  | [] => []
  | [x] => indSp (d + 1) ++ dumpsIndent (d + 1) x
  | x :: y :: rest =>
      indSp (d + 1) ++ dumpsIndent (d + 1) x ++ ',' :: '\n' :: indItems d (y :: rest)

/-- Indented object members, `",\n"`-joined, each at depth `d+1`. -/
def indPairs (d : Nat) : List (Str × JVal) → Str
  | [] => []
  | [(k, v)] => indSp (d + 1) ++ strDump k ++ ':' :: ' ' :: dumpsIndent (d + 1) v
  | (k, v) :: p :: rest =>
      indSp (d + 1) ++ strDump k ++ ':' :: ' ' :: dumpsIndent (d + 1) v
        ++ ',' :: '\n' :: indPairs d (p :: rest)
end

/-- Hex digit value, if any (as accepted in `\uXXXX` escapes). -/
def hexv (c : Char) : Option Nat :=
  if '0' ≤ c ∧ c ≤ '9' then some (c.toNat - '0'.toNat)
  else if 'a' ≤ c ∧ c ≤ 'f' then some (10 + (c.toNat - 'a'.toNat))
  else if 'A' ≤ c ∧ c ≤ 'F' then some (10 + (c.toNat - 'A'.toNat))
  else none

/-- Short escape decoding (`\n`, `\t`, ...), as in `json.loads`. -/
def unesc (c : Char) : Option Char :=
  if c = '"' then some '"'
  else if c = '\\' then some '\\'
  else if c = '/' then some '/'
  else if c = 'n' then some '\n'
  else if c = 't' then some '\t'
  else if c = 'r' then some '\r'
  else if c = 'b' then some (Char.ofNat 8)
  else if c = 'f' then some (Char.ofNat 12)
  else none

/-- Body of a JSON string literal after the opening quote: decoded content
plus the remainder after the closing quote. -/
def strBody (acc : Str) : Str → Option (Str × Str)
  | '"' :: rest => some (acc.reverse, rest)
  | '\\' :: 'u' :: h1 :: h2 :: h3 :: h4 :: rest =>
      match hexv h1, hexv h2, hexv h3, hexv h4 with
      | some a, some b, some c, some d =>
          strBody (Char.ofNat (((a * 16 + b) * 16 + c) * 16 + d) :: acc) rest
      | _, _, _, _ => none
  | '\\' :: e :: rest =>
      match unesc e with
      | some c => strBody (c :: acc) rest
      | none => none
  | c :: rest => strBody (c :: acc) rest
  | [] => none

/-- Leading run of decimal digits, and the rest. -/
def digsTake : Str → (Str × Str)
  | c :: cs => if isDig c then
      let (ds, r) := digsTake cs
      (c :: ds, r)
    else ([], c :: cs)
  | [] => ([], [])

/-- Numeric value of a digit run. -/
def digsVal (ds : Str) : Nat :=
  ds.foldl (fun a c => a * 10 + (c.toNat - '0'.toNat)) 0

mutual
/-- Recursive-descent JSON value parser modelling `json.loads` (numbers
restricted to integer literals), fuel-based for totality. -/
def parseVal : Nat → Str → Option (JVal × Str)
  | 0, _ => none
  | fu + 1, cs =>
    match wsDrop cs with
    | 'n' :: 'u' :: 'l' :: 'l' :: r => some (.null, r)
    | 't' :: 'r' :: 'u' :: 'e' :: r => some (.bool true, r)
    | 'f' :: 'a' :: 'l' :: 's' :: 'e' :: r => some (.bool false, r)
    | '"' :: r =>
        (match strBody [] r with
         | some (s, r') => some (.str s, r')
         | none => none)
    | '[' :: r =>
        (match wsDrop r with
         | ']' :: r' => some (.arr [], r')
         | other =>
             match parseItems fu other with
             | some (xs, r') => some (.arr xs, r')
             | none => none)
    | '{' :: r =>
        (match wsDrop r with
         | '}' :: r' => some (.obj [], r')
         | other =>
             match parseMembers fu other with
             | some (ps, r') =>
                 some (.obj (ps.foldl (fun d p => dictInsert d p.1 p.2) []), r')
             | none => none)
    | '-' :: r =>
        (match digsTake r with
         | ([], _) => none
         | (ds, r') => some (.num (-(digsVal ds : Int)), r'))
    | c :: r =>
        if isDig c then
          match digsTake (c :: r) with
          | (ds, r') => some (.num (digsVal ds : Int), r')
        else none
    | [] => none

/-- One or more comma-separated array elements up to the closing bracket. -/
def parseItems : Nat → Str → Option (List JVal × Str)
  | 0, _ => none
  | fu + 1, cs =>
    match parseVal fu cs with
    | none => none
    | some (v, r) =>
        match wsDrop r with
        | ',' :: r' =>
            (match parseItems fu r' with
             | some (vs, r'') => some (v :: vs, r'')
             | none => none)
        | ']' :: r' => some ([v], r')
        | _ => none

/-- One or more `"key": value` members up to the closing brace. -/
def parseMembers : Nat → Str → Option (List (Str × JVal) × Str)
  | 0, _ => none
  | fu + 1, cs =>
    match wsDrop cs with
    | '"' :: r =>
        (match strBody [] r with
         | none => none
         | some (k, r1) =>
             match wsDrop r1 with
             | ':' :: r2 =>
                 (match parseVal fu r2 with
                  | none => none
                  | some (v, r3) =>
                      match wsDrop r3 with
                      | ',' :: r4 =>
                          (match parseMembers fu r4 with
                           | some (ps, r5) => some ((k, v) :: ps, r5)
                           | none => none)
                      | '}' :: r4 => some ([(k, v)], r4)
                      | _ => none)
             | _ => none)
    | _ => none
end

/-- `json.loads`: parse a complete document, rejecting trailing content. -/
def loads (s : Str) : Option JVal :=
  match parseVal (s.length + 1) s with
  | some (v, r) => if wsDrop r = [] then some v else none
  | none => none

example : loads ("\x7b\"a\":1\x7d").toList = some (.obj [(['a'], .num 1)]) := by decide
example : loads ("[1,-2,true]").toList = some (.arr [.num 1, .num (-2), .bool true]) := by
  decide
example : loads ("\x7b\"a\":\"\\u005fx\"\x7d").toList
    = some (.obj [(['a'], .str ['_', 'x'])]) := by decide
example : loads ("not json").toList = none := by decide

/-- Python's substring test (`pat in s`). -/
def occurs : Str → Str → Bool
  | pat, [] => pat.isEmpty
  | pat, c :: rest => pat.isPrefixOf (c :: rest) || occurs pat rest

/-- Python `str.replace`, fuel-based for kernel evaluation: scan left to
right, splicing `rep` over each non-overlapping occurrence of `pat` and
resuming after it (any fuel above `s.length` computes the result for a
non-empty `pat`). -/
def pyReplaceF : Nat → Str → Str → Str → Str
  | 0, s, _, _ => s
  | fu + 1, s, pat, rep =>
      if pat.isPrefixOf s then rep ++ pyReplaceF fu (s.drop pat.length) pat rep
      else
        match s with
        | [] => []
        | c :: rest => c :: pyReplaceF fu rest pat rep

/-- Python `s.replace(pat, rep)`. -/
def pyReplace (s pat rep : Str) : Str := pyReplaceF (s.length + 1) s pat rep

mutual
/-- `replace_lists_with_placeholders`, with the uuid supply explicit: the
`k`-th array encountered (in traversal order) becomes the string scalar
`tok k` and its compact one-line serialization is recorded; objects are
rebuilt memberwise in order; scalars pass through.  Returns the transformed
value, the next token index and the recorded placeholder pairs in
insertion order. -/
def xformV (tok : Nat → Str) (k : Nat) : JVal → (JVal × Nat × List (Str × Str))
  | .null => (.null, k, [])
  | .bool b => (.bool b, k, [])
  | .num n => (.num n, k, [])
  | .str s => (.str s, k, [])
  | .arr xs => (.str (tok k), k + 1, [(tok k, dumpsCompact (.arr xs))])
  | .obj kvs =>
      match xformPairs tok k kvs with
      | (kvs', k', ph) => (.obj kvs', k', ph)

/-- Memberwise placeholder substitution over an object's pairs. -/
def xformPairs (tok : Nat → Str) (k : Nat) :
    List (Str × JVal) → (List (Str × JVal) × Nat × List (Str × Str))
  | [] => ([], k, [])
  | (key, v) :: rest =>
      match xformV tok k v with
      | (v', k1, ph1) =>
          match xformPairs tok k1 rest with
          | (rest', k2, ph2) => ((key, v') :: rest', k2, ph1 ++ ph2)
end

/-- The exception classes the embedded code can raise. -/
inductive Err where
  | typeErr (msg : Str)
  | valueErr (msg : Str)
  | runtimeErr (msg : Str)
  | fileNotFoundErr (msg : Str)
  | jsonDecodeErr (msg : Str)
  | importErr (msg : Str)
  | attributeErr (msg : Str)
  | osErr (msg : Str)
deriving DecidableEq, Repr

/-- `return_or_raise`: hand back the default under `no_throw`, otherwise
raise the supplied exception. -/
def return_or_raise {α : Type} (no_throw : Bool) (ret : α) (exc : Err) : Except Err α :=
  if no_throw then .ok ret else .error exc

/-- `is_valid_json`: parse the text; on success `(True, value, None)`.  On
a decode failure the error propagates unless `no_throw`, in which case the
failure comes back as `(False, None, message)`. -/
def is_valid_json (json_str : Str) (no_throw : Bool) :
    Except Err (Bool × Option JVal × Option Str) :=
  match loads json_str with
  | some v => .ok (true, some v, none)
  | none =>
      if no_throw then
        .ok (false, none, some ("Exception (JSONDecodeError): invalid JSON".toList))
      else .error (.jsonDecodeErr ("invalid JSON".toList))

/-- `prettify_json`, uuid supply explicit: validate and parse the text (on
failure return it unchanged under `no_throw`, raise otherwise), replace
every array by a fresh placeholder token, pretty-print the transformed tree
at indent 1, then splice each recorded quoted token back as its compact
one-line array text. -/
def prettify_json (tok : Nat → Str) (no_throw : Bool) (json_text : Str) : Except Err Str :=
  match is_valid_json json_text no_throw with
  | .error e => .error e
  | .ok (result, valid_json, _) =>
      if result then
        match valid_json with
        | some v =>
            match xformV tok 0 v with
            | (tv, _, ph) =>
                .ok (ph.foldl (fun txt p => pyReplace txt ('"' :: (p.1 ++ ['"'])) p.2)
                      (dumpsIndent 0 tv))
        | none => .ok json_text
      else return_or_raise no_throw json_text (.runtimeErr ("`json_text` is not a valid json".toList))

/-- Hex digit as produced by `uuid.uuid4().hex`. -/
def isHexLower (c : Char) : Bool := ('0' ≤ c && c ≤ '9') || ('a' ≤ c && c ≤ 'f')

/-- The fixed stem of every generated placeholder token. -/
def placeholderStem : Str := "__JSON_LIST_PLACEHOLDER_".toList

/-- Shape of a generated placeholder token:
`__JSON_LIST_PLACEHOLDER_<32 lowercase hex>__`. -/
def tokenShape (t : Str) : Bool :=
  t.length = 58 && placeholderStem.isPrefixOf t
    && ((t.drop 24).take 32).all isHexLower
    && t.drop 56 = ['_', '_']

/-- What `generate_unique_token` guarantees for the sequence of accepted
tokens when `used` of them are handed out: each has the generated shape, is
not a substring of the original input text, and differs from every
previously accepted token. -/
def toksOk (json_text : Str) (tok : Nat → Str) (used : Nat) : Prop :=
  ∀ k, k < used →
    tokenShape (tok k) = true
      ∧ occurs (tok k) json_text = false
      ∧ ∀ j, j < k → tok j ≠ tok k

mutual
/-- The canonical text the placeholder round trip is meant to rebuild:
objects pretty-printed exactly as `dumpsIndent`, arrays (with all their
contents) as their compact one-line serialization. -/
def fusedDump (d : Nat) : JVal → Str
  | .null => "null".toList
  | .bool true => "true".toList
  | .bool false => "false".toList
  | .num n => intDump n
  | .str s => strDump s
  | .arr xs => dumpsCompact (.arr xs)
  | .obj [] => ['{', '}']
  | .obj (p :: ps) =>
      '{' :: '\n' :: (fusedPairs d (p :: ps) ++ '\n' :: (indSp d ++ ['}']))

/-- Indented members of a canonical object, `",\n"`-joined at depth `d+1`. -/
def fusedPairs (d : Nat) : List (Str × JVal) → Str
  | [] => []
  | [(k, v)] => indSp (d + 1) ++ strDump k ++ ':' :: ' ' :: fusedDump (d + 1) v
  | (k, v) :: p :: rest =>
      indSp (d + 1) ++ strDump k ++ ':' :: ' ' :: fusedDump (d + 1) v
        ++ ',' :: '\n' :: fusedPairs d (p :: rest)
end

example :
    prettify_json (fun _ => "__JSON_LIST_PLACEHOLDER_0000000000000000000000000000000a__".toList)
      false ("\x7b\"a\":\x7b\"b\":[1,2]\x7d,\"c\":\"x\"\x7d").toList
      = .ok ("\x7b\n \"a\": \x7b\n  \"b\": [1,2]\n \x7d,\n \"c\": \"x\"\n\x7d").toList := by
  rfl

/-- Keyword arguments handed to a tool runner (`runner(**args)`). -/
abbrev Args := List (Str × JVal)

/-- An exception a tool's own code raises: its class name and message. -/
structure PyExc where
  category : Str
  msg : Str
deriving DecidableEq, Repr

/-- The value bound to `tool_run` in a loaded module (missing, bound to a
non-callable, or bound to a callable with the given behavior). -/
inductive RunnerBinding where
  | absent
  | notCallable
  | callable (f : Args → Except PyExc JVal)

/-- The value bound to `TOOL_DEFINITION` in a loaded module. -/
inductive DefBinding where
  | absent
  | notStr
  | str (s : Str)

/-- The outcome of executing a candidate file's top-level code. -/
inductive LoadResult where
  | importFail
  | loaded (tool_run : RunnerBinding) (TOOL_DEFINITION : DefBinding)

/-- A filesystem tree: directories (possibly symlinked or unlistable) and
plain files carrying stem, extension, `stat` behavior, size and the result
of importing them. -/
inductive FSEntry where
  | dir (name : Str) (symlink : Bool) (readable : Bool) (entries : List FSEntry)
  | file (name : Str) (stem : Str) (ext : Str) (statOk : Bool) (size : Nat)
      (mod : LoadResult)

mutual
/-- Node count of a filesystem tree (loop fuel bound). -/
def fsWeight : FSEntry → Nat
  | .file .. => 1
  | .dir _ _ _ es => 1 + fsWeightList es

/-- Node count of a sibling list. -/
def fsWeightList : List FSEntry → Nat
  | [] => 0
  | e :: rest => fsWeight e + fsWeightList rest
end

/-- `VerboseLevel`: NONE < LOW < MID < HIGH. -/
inductive VLevel where
  | NONE
  | LOW
  | MID
  | HIGH
deriving DecidableEq, Repr

/-- Numeric value of a verbosity level (the `IntEnum` order). -/
def VLevel.rank : VLevel → Nat
  | .NONE => 0
  | .LOW => 1
  | .MID => 2
  | .HIGH => 3

/-- `VerboseLevel.includes`: the current level covers the message level. -/
def VLevel.includes (cur req : VLevel) : Bool := req.rank ≤ cur.rank

/-- `VerboseSettings`: verbosity plus the global propagation policy. -/
structure VSettings where
  verbose_level : VLevel
  no_throw : Bool

/-- `print_verbose` acting on a message log: emit `msg` iff the current
level is not NONE and covers the required level. -/
def print_verbose (req : VLevel) (msg : Str) (vs : VSettings) (log : List Str) : List Str :=
  if vs.verbose_level = .NONE then log
  else if vs.verbose_level.includes req then log ++ [msg]
  else log

/-- A registry entry: `{"description": ..., "runner": ...}`. -/
structure ToolEntry where
  description : Str
  runner : RunnerBinding

/-- Observable state of one scan: the registry under construction plus the
observational traces (files whose top-level code ran, directories listed,
diagnostic log) and the number of extraction attempts (fresh-uuid stream
offset for `prettify_json` calls). -/
structure ScanState where
  tools : List (Str × ToolEntry)
  loaded : List Str
  dirsVisited : List Str
  log : List Str
  tokCalls : Nat

/-- The state a scan starts from (also the `{}` result of a degraded
top-level precondition failure). -/
def emptyScan : ScanState := ⟨[], [], [], [], 0⟩

/-- `_MAX_TOOL_FILE_SIZE_BYTES`: the 1 MiB candidate ceiling. -/
def MAX_TOOL_FILE_SIZE_BYTES : Nat := 1048576

/-- Configuration of one scan after argument normalization. -/
structure ScanCfg where
  vs : VSettings
  pre : Str
  suf : Str
  prettify : Bool
  validate : Bool
  tokO : Nat → Nat → Str
  max_depth : Int

/-- The extraction `try`-block: require a callable `tool_run` and a string
`TOOL_DEFINITION`; when validating or prettifying, require the descriptor
to parse as JSON; when prettifying, canonicalize it.  Any failure is the
exception the block raises. -/
def extractFields (vs : VSettings) (prettify validate : Bool) (toks : Nat → Str)
    (tool_run : RunnerBinding) (descr : DefBinding) : Except Err Str :=
  match tool_run with
  | .callable _ =>
      (match descr with
       | .str s =>
           if validate || prettify then
             match is_valid_json s vs.no_throw with
             | .error e => .error e
             | .ok (result, _, error_message) =>
                 if result then
                   if prettify then prettify_json toks vs.no_throw s else .ok s
                 else
                   .error (.valueErr
                     (error_message.getD ("`TOOL_DEFINITION` is not valid JSON".toList)))
           else .ok s
       | _ => .error (.typeErr ("`TOOL_DEFINITION` must be a JSON string (type str)".toList)))
  | _ => .error (.attributeErr ("Missing or non-callable `tool_run`".toList))

/-- Name a candidate registers under: the stem with the prefix sliced off
(`stem[len(prefix):]`) and, when the suffix filter is non-empty, the
suffix sliced off (`[:-len(suffix)]`). -/
def moduleNameOf (cfg : ScanCfg) (stem : Str) : Str :=
  let m := stem.drop cfg.pre.length
  if cfg.suf ≠ [] then m.take (m.length - cfg.suf.length) else m

/-- The load-and-extract tail of the per-file body, entered after every
filter and the size guard passed, with the load already traced in `st`:
the import step (whose failure follows the policy), the extraction
`try`-block (whose failure follows the policy), and registry insertion
with the overwrite warning. -/
def registerLoaded (cfg : ScanCfg) (st : ScanState) (name module_name : Str) :
    LoadResult → ScanState × Option Err
  | .importFail =>
      let st2 := {st with log := (print_verbose .LOW
          ("Import failed for '".toList ++ name ++ "'".toList) cfg.vs st.log)}
      if ¬cfg.vs.no_throw then (st2, some (.importErr ("import failed".toList)))
      else (st2, none)
  | .loaded tool_run descr =>
      match extractFields cfg.vs cfg.prettify cfg.validate (cfg.tokO st.tokCalls)
          tool_run descr with
      | .error e =>
          let st2 := {st with
            tokCalls := st.tokCalls + 1,
            log := (print_verbose .LOW
              ("Skipping '".toList ++ name ++ "'".toList) cfg.vs st.log)}
          if ¬cfg.vs.no_throw then (st2, some e) else (st2, none)
      | .ok description =>
          let st2 := {st with tokCalls := st.tokCalls + 1}
          let st3 :=
            if containsKey st2.tools module_name then
              {st2 with log := (print_verbose .LOW
                ("Overwriting '".toList ++ module_name ++ "' tool".toList) cfg.vs st2.log)}
            else st2
          ({st3 with
              tools := dictInsert st3.tools module_name ⟨description, tool_run⟩,
              log := (print_verbose .MID
                ("Loaded tool: ".toList ++ module_name ++ ", from file: ".toList ++ name)
                cfg.vs st3.log)}, none)

/-- The per-file body of the scan loop: extension and name filters, the
size guard, then the load/extract/insert tail (`registerLoaded`), with the
load recorded in the `loaded` trace.  Returns the updated state and the
exception escaping the loop, if any. -/
def processFile (cfg : ScanCfg) (st : ScanState) : FSEntry → ScanState × Option Err
  | .dir .. => (st, none)
  | .file name stem ext statOk size mod =>
    if ext ≠ ".py".toList then (st, none)
    else if ¬(cfg.pre.isPrefixOf stem && cfg.suf.isSuffixOf stem) then (st, none)
    else if stem.length ≤ cfg.pre.length + cfg.suf.length then
      ({st with log := (print_verbose .HIGH
          ("Rejected by name (no middle part): ".toList ++ name) cfg.vs st.log)}, none)
    else if ¬statOk then
      let st1 := {st with log := (print_verbose .HIGH
          ("Cannot stat file '".toList ++ name ++ "'".toList) cfg.vs st.log)}
      if ¬cfg.vs.no_throw then (st1, some (.osErr ("stat failed".toList)))
      else (st1, none)
    else if size > MAX_TOOL_FILE_SIZE_BYTES then
      ({st with log := (print_verbose .LOW
          ("Skipping file >1MB: ".toList ++ name) cfg.vs st.log)}, none)
    else
      registerLoaded cfg {st with loaded := st.loaded ++ [name]} name
        (moduleNameOf cfg stem) mod

/-- One listed directory's entry loop: child directories are pushed (unless
symlinked or at the depth limit), files go through `processFile`.  Pushed
children are returned top-of-stack first; an exception aborts the loop. -/
def processEntries (cfg : ScanCfg) (depth : Int) :
    List FSEntry → ScanState → List (FSEntry × Int) × ScanState × Option Err
  | [], st => ([], st, none)
  | e :: rest, st =>
      match e with
      | .dir dn sym readable des =>
          if sym then
            let st1 := {st with log := (print_verbose .HIGH
                ("Skipping symlinked directory: ".toList ++ dn) cfg.vs st.log)}
            processEntries cfg depth rest st1
          else if depth ≥ cfg.max_depth then
            let st1 := {st with log := (print_verbose .HIGH
                ("Max depth reached; skipping directory: ".toList ++ dn) cfg.vs st.log)}
            processEntries cfg depth rest st1
          else
            match processEntries cfg depth rest st with
            | (pushed, st', err) => (pushed ++ [(.dir dn sym readable des, depth + 1)], st', err)
      | .file name stem ext statOk size mod =>
          match processFile cfg st (.file name stem ext statOk size mod) with
          | (st1, some ex) => ([], st1, some ex)
          | (st1, none) => processEntries cfg depth rest st1

/-- The iterative scan loop: pop the top `(directory, depth)` entry, record
the visit, list it (an unlistable directory follows the policy), process
its entries and push the accepted child directories.  Fuel-based; any fuel
above the tree's node count completes the traversal. -/
def scanLoop (cfg : ScanCfg) : Nat → List (FSEntry × Int) → ScanState → ScanState × Option Err
  | 0, _, st => (st, none)
  | _ + 1, [], st => (st, none)
  | fu + 1, (f, depth) :: rest, st =>
      match f with
      | .file .. => scanLoop cfg fu rest st
      | .dir dn _sym readable entries =>
          let st1 := {st with
            dirsVisited := st.dirsVisited ++ [dn],
            log := print_verbose .HIGH ("Traversing dir: ".toList ++ dn) cfg.vs st.log}
          if ¬readable then
            let st2 := {st1 with log := (print_verbose .LOW
                ("Cannot list directory '".toList ++ dn ++ "'".toList) cfg.vs st1.log)}
            if ¬cfg.vs.no_throw then (st2, some (.osErr ("cannot list directory".toList)))
            else scanLoop cfg fu rest st2
          else
            match processEntries cfg depth entries st1 with
            | (_, st', some ex) => (st', some ex)
            | (pushed, st', none) => scanLoop cfg fu (pushed ++ rest) st'

/-- `find_tools_json`: validate the scan arguments (`max_depth ≥ 0`,
normalization of absent affix filters, `prettify` overriding `validate`),
require the base to be a directory, then run the traversal.  The first
component's `tools` field is the function's Python return value; the other
fields are the observational traces.  The second component is the exception
propagated out, if any (so traces survive a raise). -/
def find_tools_json (base : FSEntry) (vs : VSettings) (max_depth : Int)
    (pre0 suf0 : Option Str) (prettify validate : Bool) (tokO : Nat → Nat → Str) :
    ScanState × Option Err :=
  if max_depth < 0 then
    (emptyScan,
     if vs.no_throw then none else some (.valueErr ("`max_depth` value must be >= 0".toList)))
  else
    let preN := pre0.getD []
    let sufN := suf0.getD []
    let validateN := if prettify then false else validate
    match base with
    | .file .. =>
        (emptyScan,
         if vs.no_throw then none
         else some (.fileNotFoundErr
           ("Base directory does not exist or is not a directory".toList)))
    | .dir dn sym readable entries =>
        scanLoop ⟨vs, preN, sufN, prettify, validateN, tokO, max_depth⟩
          (fsWeight (.dir dn sym readable entries) + 1)
          [(.dir dn sym readable entries, 0)] emptyScan

/-- A `tool_call` payload: JSON text, or an already-parsed object. -/
inductive PyArg where
  | text (s : Str)
  | parsed (d : List (Str × JVal))

/-- `payload.get(k, None)` on a decoded JSON object: a JSON `null` decodes
to Python `None` and is indistinguishable from an absent key. -/
def pyGet (kvs : List (Str × JVal)) (k : Str) : Option JVal :=
  match lookupAssoc kvs k with
  | some .null => none
  | other => other

/-- ASCII whitespace for `str.strip()`. -/
def isPyWs (c : Char) : Bool :=
  c = ' ' || c = '\t' || c = '\n' || c = '\r' || c = Char.ofNat 11 || c = Char.ofNat 12

/-- Python `str.strip()`. -/
def pyStrip (s : Str) : Str :=
  ((s.dropWhile isPyWs).reverse.dropWhile isPyWs).reverse

/-- The dispatch tail of `run_tool`: registry lookup (absence follows the
policy), runner callability check, then invocation, with any runner
exception reclassified as a RuntimeError carrying its class name and
message (or collapsed to `None` under `no_throw`).  The second component
lists the runner invocations actually made. -/
def dispatchTool (tools : List (Str × ToolEntry)) (no_throw : Bool) (nm : Str)
    (args : Args) : Except Err (Option JVal) × List Str :=
  match lookupAssoc tools nm with
  | none =>
      (return_or_raise no_throw none
        (.valueErr ("`".toList ++ nm ++ "` is not a registered tool".toList)), [])
  | some entry =>
      match entry.runner with
      | .callable f =>
          (match f args with
           | .ok v => (.ok (some v), [nm])
           | .error ex =>
               if no_throw then (.ok none, [nm])
               else
                 (.error (.runtimeErr ("Tool `".toList ++ nm
                     ++ "` execution failed. Exception (".toList ++ ex.category
                     ++ "): ".toList ++ ex.msg)), [nm]))
      | _ =>
          (return_or_raise no_throw none
            (.runtimeErr ("Registered tool `".toList ++ nm
              ++ "` has no callable `runner`".toList)), [])

/-- `LlmTools.run_tool` over a built registry.  Primary path: decode the
payload text (a failed decode falls through), unwrap the tolerated
single-element list, read `name`/`function_name` and
`parameters`/`arguments` (an absent argument field means `{}`; a string
argument field is decoded again, failure invalidating the whole path), and
accept only a non-empty name with mapping-typed arguments.  Fallback path:
the explicit `tool_name`/`tool_args` pair.  Then dispatch. -/
def run_tool (tools : List (Str × ToolEntry)) (no_throw : Bool)
    (tool_call : Option PyArg) (tool_name : Option Str) (tool_args : Option Args) :
    Except Err (Option JVal) × List Str :=
  let payload0 : Option JVal :=
    match tool_call with
    | none => none
    | some (.text s) => loads s
    | some (.parsed d) => some (.obj d)
  let payload : Option JVal :=
    match payload0 with
    | some (.arr [.obj d]) => some (.obj d)
    | some (.arr _) => none
    | p => p
  let resolved : Option (Str × Args) :=
    match payload with
    | some (.obj d) =>
        let candidate_name :=
          match pyGet d ("name".toList) with
          | none => pyGet d ("function_name".toList)
          | some v => some v
        let rawArgs :=
          match pyGet d ("parameters".toList) with
          | none => pyGet d ("arguments".toList)
          | some v => some v
        let filledArgs : Option JVal :=
          match rawArgs with
          | none => some (.obj [])
          | some v => some v
        let decodedArgs : Option JVal :=
          match filledArgs with
          | some (.str s) => loads s
          | v => v
        (match candidate_name, decodedArgs with
         | some (.str nm), some (.obj args) =>
             if (pyStrip nm).isEmpty then none else some (nm, args)
         | _, _ => none)
    | _ => none
  match resolved with
  | some (nm, args) => dispatchTool tools no_throw nm args
  | none =>
      match tool_name with
      | none =>
          (return_or_raise no_throw none
            (.valueErr ("Unknown tool-call format or missing `tool_call`; fallback `tool_name` must be provided".toList)), [])
      | some nm =>
          if (pyStrip nm).isEmpty then
            (return_or_raise no_throw none
              (.typeErr ("`tool_name` must be a non-empty str".toList)), [])
          else
            dispatchTool tools no_throw nm (tool_args.getD [])

/-- Dispatch on a name bound to a callable runner that succeeds. -/
theorem dispatchTool_ok {tools : List (Str × ToolEntry)} {nm : Str} {d : Str}
    {f : Args → Except PyExc JVal} {args : Args} {v : JVal} (nt : Bool)
    (hl : lookupAssoc tools nm = some ⟨d, .callable f⟩) (hf : f args = .ok v) :
    dispatchTool tools nt nm args = (.ok (some v), [nm]) := by
  unfold dispatchTool
  rw [hl]
  simp only [hf]

/-- Dispatch on an unregistered name follows the policy and invokes nothing. -/
theorem dispatchTool_missing {tools : List (Str × ToolEntry)} {nm : Str} (nt : Bool)
    (args : Args) (hl : lookupAssoc tools nm = none) :
    dispatchTool tools nt nm args
      = (return_or_raise nt none
          (.valueErr ("`".toList ++ nm ++ "` is not a registered tool".toList)), []) := by
  unfold dispatchTool
  rw [hl]

/-- Dispatch on a callable runner that raises: reclassified or collapsed. -/
theorem dispatchTool_raises {tools : List (Str × ToolEntry)} {nm : Str} {d : Str}
    {f : Args → Except PyExc JVal} {args : Args} {ex : PyExc}
    (hl : lookupAssoc tools nm = some ⟨d, .callable f⟩) (hf : f args = .error ex) :
    dispatchTool tools false nm args
      = (.error (.runtimeErr ("Tool `".toList ++ nm
          ++ "` execution failed. Exception (".toList ++ ex.category
          ++ "): ".toList ++ ex.msg)), [nm])
    ∧ dispatchTool tools true nm args = (.ok none, [nm]) := by
  constructor <;> (unfold dispatchTool; rw [hl]; simp [hf])

/-- The fallback path resolves to the explicit pair. -/
theorem run_tool_fallback {tools : List (Str × ToolEntry)} {nm : Str} (nt : Bool)
    (args_ : Args) (h : (pyStrip nm).isEmpty = false) :
    run_tool tools nt none (some nm) (some args_) = dispatchTool tools nt nm args_ := by
  unfold run_tool
  simp [h]

/-- A parsed `{"name": nm}` payload resolves to `nm` with empty arguments. -/
theorem run_tool_parsedName {tools : List (Str × ToolEntry)} {nm : Str} (nt : Bool)
    (h : (pyStrip nm).isEmpty = false) :
    run_tool tools nt (some (.parsed [("name".toList, .str nm)])) none none
      = dispatchTool tools nt nm [] := by
  unfold run_tool
  simp [pyGet, lookupAssoc, h]

/-- **C3**: resolution of a tool-call payload behaves as specified on the three
canonical inputs: `{"name":"x","arguments":{"a":1}}` resolves to name `x`
with arguments `{"a": 1}` (the registered callable receives exactly them);
the single-element list `[{"name":"x","parameters":{}}]` is unwrapped and
resolves to `x` with empty arguments; and `"not json"` with no fallback
name fails as the unknown-format ValueError under fail-fast and yields the
neutral empty result under fail-open. -/
theorem claim_C3 : ∀ (f : Args → Except PyExc JVal) (d : Str) (v : JVal),
    (f [("a".toList, .num 1)] = .ok v →
      run_tool [("x".toList, ⟨d, .callable f⟩)] false
        (some (.text ("\x7b\"name\":\"x\",\"arguments\":\x7b\"a\":1\x7d\x7d").toList)) none none
        = (.ok (some v), ["x".toList]))
    ∧ (f [] = .ok v →
      run_tool [("x".toList, ⟨d, .callable f⟩)] false
        (some (.text ("[\x7b\"name\":\"x\",\"parameters\":\x7b\x7d\x7d]").toList)) none none
        = (.ok (some v), ["x".toList]))
    ∧ run_tool [("x".toList, ⟨d, .callable f⟩)] false (some (.text ("not json").toList)) none none
        = (.error (.valueErr ("Unknown tool-call format or missing `tool_call`; fallback `tool_name` must be provided".toList)), [])
    ∧ run_tool [("x".toList, ⟨d, .callable f⟩)] true (some (.text ("not json").toList)) none none
        = (.ok none, []) := by
  intro f d v
  refine ⟨?_, ?_, rfl, rfl⟩
  · intro h
    have step : run_tool [("x".toList, ⟨d, .callable f⟩)] false
        (some (.text ("\x7b\"name\":\"x\",\"arguments\":\x7b\"a\":1\x7d\x7d").toList)) none none
        = dispatchTool [("x".toList, ⟨d, .callable f⟩)] false ("x".toList)
            [("a".toList, .num 1)] := rfl
    rw [step]; exact dispatchTool_ok false (by rfl) h
  · intro h
    have step : run_tool [("x".toList, ⟨d, .callable f⟩)] false
        (some (.text ("[\x7b\"name\":\"x\",\"parameters\":\x7b\x7d\x7d]").toList)) none none
        = dispatchTool [("x".toList, ⟨d, .callable f⟩)] false ("x".toList) [] := rfl
    rw [step]; exact dispatchTool_ok false (by rfl) h

theorem claim_C3_witness :
    run_tool [("x".toList, ⟨[], .callable (fun args => .ok (.obj args))⟩)] false
      (some (.text ("\x7b\"name\":\"x\",\"arguments\":\x7b\"a\":1\x7d\x7d").toList)) none none
      = (.ok (some (.obj [("a".toList, .num 1)])), ["x".toList]) :=
  (claim_C3 (fun args => .ok (.obj args)) [] (.obj [("a".toList, .num 1)])).1 rfl

/-- **C4**: a resolved call whose name is not a registry key fails as the
lookup ValueError under fail-fast and returns the neutral `None` under
fail-open, and in both cases no callable is invoked (empty invocation
trace); both for an explicitly supplied fallback name and for a
payload-resolved name. -/
theorem claim_C4 : ∀ (tools : List (Str × ToolEntry)) (nm : Str) (args_ : Args),
    lookupAssoc tools nm = none → (pyStrip nm).isEmpty = false →
    (run_tool tools false none (some nm) (some args_)
        = (.error (.valueErr ("`".toList ++ nm ++ "` is not a registered tool".toList)), []))
    ∧ run_tool tools true none (some nm) (some args_) = (.ok none, [])
    ∧ run_tool tools false (some (.parsed [("name".toList, .str nm)])) none none
        = (.error (.valueErr ("`".toList ++ nm ++ "` is not a registered tool".toList)), [])
    ∧ run_tool tools true (some (.parsed [("name".toList, .str nm)])) none none
        = (.ok none, []) := by
  intro tools nm args_ hl hs
  refine ⟨?_, ?_, ?_, ?_⟩
  · rw [run_tool_fallback false args_ hs, dispatchTool_missing false args_ hl]; rfl
  · rw [run_tool_fallback true args_ hs, dispatchTool_missing true args_ hl]; rfl
  · rw [run_tool_parsedName false hs, dispatchTool_missing false [] hl]; rfl
  · rw [run_tool_parsedName true hs, dispatchTool_missing true [] hl]; rfl

theorem claim_C4_witness :
    run_tool [] true none (some ("y".toList)) (some []) = (.ok none, []) :=
  (claim_C4 [] ("y".toList) [] rfl rfl).2.1

/-- **C5**: when a registered tool's callable raises, `run_tool` never
propagates the tool's own exception: under fail-fast it raises a
RuntimeError carrying the original exception's class name and message, and
under fail-open it returns the neutral `None` (the invocation trace showing
the callable did run). -/
theorem claim_C5 : ∀ (tools : List (Str × ToolEntry)) (nm d : Str)
    (f : Args → Except PyExc JVal) (args_ : Args) (ex : PyExc),
    lookupAssoc tools nm = some ⟨d, .callable f⟩ → (pyStrip nm).isEmpty = false →
    f args_ = .error ex →
    run_tool tools false none (some nm) (some args_)
      = (.error (.runtimeErr ("Tool `".toList ++ nm
          ++ "` execution failed. Exception (".toList ++ ex.category
          ++ "): ".toList ++ ex.msg)), [nm])
    ∧ run_tool tools true none (some nm) (some args_) = (.ok none, [nm]) := by
  intro tools nm d f args_ ex hl hs hf
  constructor
  · rw [run_tool_fallback false args_ hs]
    exact (dispatchTool_raises hl hf).1
  · rw [run_tool_fallback true args_ hs]
    exact (dispatchTool_raises hl hf).2

theorem claim_C5_witness :
    run_tool [("t".toList,
        ⟨[], .callable (fun _ => .error ⟨"ZeroDivisionError".toList, "division by zero".toList⟩)⟩)]
      true none (some ("t".toList)) (some []) = (.ok none, ["t".toList]) :=
  (claim_C5 [("t".toList,
      ⟨[], .callable (fun _ => .error ⟨"ZeroDivisionError".toList, "division by zero".toList⟩)⟩)]
    ("t".toList) []
    (fun _ => .error ⟨"ZeroDivisionError".toList, "division by zero".toList⟩) []
    ⟨"ZeroDivisionError".toList, "division by zero".toList⟩ (by rfl) rfl rfl).2

mutual
/-- Names of the files in a tree whose size is within the candidate
ceiling (the only files the scan may ever load). -/
def smallFileNames : FSEntry → List Str
  | .file name _ _ _ size _ => if size ≤ MAX_TOOL_FILE_SIZE_BYTES then [name] else []
  | .dir _ _ _ es => smallNamesList es

/-- `smallFileNames` over a sibling list. -/
def smallNamesList : List FSEntry → List Str
  | [] => []
  | e :: r => smallFileNames e ++ smallNamesList r
end

/-- Closed form of `registerLoaded` when extraction succeeds: the entry is
inserted under the module name, the overwrite warning precedes the loaded
message exactly when the key already existed, and no exception escapes. -/
theorem registerLoaded_ok (cfg : ScanCfg) (st : ScanState) (name mn : Str)
    (tr : RunnerBinding) (ds : DefBinding) (d : Str)
    (hex : extractFields cfg.vs cfg.prettify cfg.validate (cfg.tokO st.tokCalls) tr ds
      = .ok d) :
    registerLoaded cfg st name mn (.loaded tr ds)
      = ({ tools := dictInsert st.tools mn ⟨d, tr⟩,
           loaded := st.loaded,
           dirsVisited := st.dirsVisited,
           log := print_verbose .MID
             ("Loaded tool: ".toList ++ mn ++ ", from file: ".toList ++ name) cfg.vs
             (if containsKey st.tools mn then
                print_verbose .LOW ("Overwriting '".toList ++ mn ++ "' tool".toList)
                  cfg.vs st.log
              else st.log),
           tokCalls := st.tokCalls + 1 }, none) := by
  unfold registerLoaded
  dsimp only
  rw [hex]
  by_cases hc : containsKey st.tools mn = true <;> simp [hc]

/-- `registerLoaded` never raises under fail-open. -/
theorem registerLoaded_noThrow (cfg : ScanCfg) (st : ScanState) (name mn : Str)
    (mod : LoadResult) (h : cfg.vs.no_throw = true) :
    (registerLoaded cfg st name mn mod).2 = none := by
  unfold registerLoaded
  cases mod <;> dsimp only <;> (repeat' split) <;> simp_all

/-- `registerLoaded` leaves the load and directory traces alone. -/
theorem registerLoaded_traces (cfg : ScanCfg) (st : ScanState) (name mn : Str)
    (mod : LoadResult) :
    (registerLoaded cfg st name mn mod).1.loaded = st.loaded
    ∧ (registerLoaded cfg st name mn mod).1.dirsVisited = st.dirsVisited := by
  cases mod with
  | importFail =>
      unfold registerLoaded
      dsimp only
      (repeat' split) <;> exact ⟨rfl, rfl⟩
  | loaded tr ds =>
      cases hex : extractFields cfg.vs cfg.prettify cfg.validate (cfg.tokO st.tokCalls) tr ds with
      | ok d =>
          rw [registerLoaded_ok cfg st name mn tr ds d hex]
          exact ⟨rfl, rfl⟩
      | error e =>
          unfold registerLoaded
          dsimp only
          rw [hex]
          (repeat' split) <;> exact ⟨rfl, rfl⟩

set_option maxHeartbeats 1000000 in
/-- `processFile` never raises under fail-open. -/
theorem processFile_noThrow (cfg : ScanCfg) (st : ScanState) (f : FSEntry)
    (h : cfg.vs.no_throw = true) : (processFile cfg st f).2 = none := by
  unfold processFile
  cases f with
  | dir name symlink readable entries => rfl
  | file name stem ext statOk size mod =>
      dsimp only
      (repeat' split) <;>
        first
          | rfl
          | exact registerLoaded_noThrow cfg _ name (moduleNameOf cfg stem) mod h

/-- `processFile` never touches the directory-visit trace. -/
theorem processFile_dirs (cfg : ScanCfg) (st : ScanState) (f : FSEntry) :
    (processFile cfg st f).1.dirsVisited = st.dirsVisited := by
  unfold processFile
  cases f with
  | dir name symlink readable entries => rfl
  | file name stem ext statOk size mod =>
      dsimp only
      (repeat' split) <;>
        first
          | rfl
          | exact (registerLoaded_traces cfg _ name (moduleNameOf cfg stem) mod).2

set_option maxHeartbeats 1000000 in
/-- Everything `processFile` adds to the load trace is the name of a file
within the size ceiling. -/
theorem processFile_loaded_small (cfg : ScanCfg) (st : ScanState) (f : FSEntry)
    (nm : Str) (h : nm ∈ (processFile cfg st f).1.loaded) :
    nm ∈ st.loaded ∨ nm ∈ smallFileNames f := by
  unfold processFile at h
  cases f with
  | dir name symlink readable entries => exact Or.inl h
  | file name stem ext statOk size mod =>
      simp only [smallFileNames]
      revert h
      dsimp only
      (repeat' split) <;> intro h <;>
        first
          | exact Or.inl h
          | (rw [(registerLoaded_traces cfg _ name (moduleNameOf cfg stem) mod).1] at h
             rcases List.mem_append.mp h with h' | h'
             · exact Or.inl h'
             · simp only [List.mem_singleton] at h'
               subst h'
               refine Or.inr ?_
               first
                 | exact List.mem_singleton_self _
                 | omega)

/-- Looking up a freshly inserted key yields the new value. -/
theorem lookupAssoc_dictInsert {α : Type} (kvs : List (Str × α)) (k : Str) (v : α) :
    lookupAssoc (dictInsert kvs k v) k = some v := by
  induction kvs with
  | nil => simp [dictInsert, lookupAssoc]
  | cons p rest ih =>
      obtain ⟨k', v'⟩ := p
      by_cases h : k' = k
      · simp [dictInsert, h, lookupAssoc]
      · simp [dictInsert, h, lookupAssoc, ih]

/-- A pair of an updated dict is the new pair or one of the old ones. -/
theorem mem_dictInsert {α : Type} (kvs : List (Str × α)) (k : Str) (v : α)
    (p : Str × α) (h : p ∈ dictInsert kvs k v) : p = (k, v) ∨ p ∈ kvs := by
  induction kvs with
  | nil => simp [dictInsert] at h; simp [h]
  | cons q rest ih =>
      obtain ⟨k', v'⟩ := q
      by_cases hk : k' = k
      · subst hk
        simp only [dictInsert, if_pos rfl] at h
        rcases List.mem_cons.mp h with h' | h'
        · exact Or.inl h'
        · exact Or.inr (List.mem_cons_of_mem _ h')
      · simp only [dictInsert, if_neg hk] at h
        rcases List.mem_cons.mp h with h' | h'
        · exact Or.inr (h' ▸ List.mem_cons_self _ _)
        · rcases ih h' with h'' | h''
          · exact Or.inl h''
          · exact Or.inr (List.mem_cons_of_mem _ h'')

/-- `print_verbose` only ever appends to the log. -/
theorem mem_print_verbose {req : VLevel} {msg x : Str} {vs : VSettings} {log : List Str}
    (h : x ∈ log) : x ∈ print_verbose req msg vs log := by
  unfold print_verbose
  (repeat' split) <;> simp [h]

/-- A LOW-level message is emitted whenever the level is not NONE. -/
theorem self_mem_print_verbose_LOW {msg : Str} {vs : VSettings} {log : List Str}
    (h : vs.verbose_level ≠ .NONE) : msg ∈ print_verbose .LOW msg vs log := by
  unfold print_verbose
  cases hv : vs.verbose_level <;> simp_all [VLevel.includes, VLevel.rank]

/-- Extraction succeeds only on a callable entry-point binding. -/
theorem extractFields_callable {vs : VSettings} {pf vd : Bool} {toks : Nat → Str}
    {tr : RunnerBinding} {ds : DefBinding} {d : Str}
    (h : extractFields vs pf vd toks tr ds = .ok d) :
    ∃ f, tr = RunnerBinding.callable f := by
  cases tr with
  | callable f => exact ⟨f, rfl⟩
  | absent => simp [extractFields] at h
  | notCallable => simp [extractFields] at h

/-- **C7**: a file whose stem starts with the configured prefix and ends
with the configured suffix but whose middle segment is empty is rejected:
the scan neither loads it nor lets it contribute to the registry, and no
exception escapes. -/
theorem claim_C7 : ∀ (cfg : ScanCfg) (st : ScanState) (name stem ext : Str)
    (statOk : Bool) (size : Nat) (mod : LoadResult),
    cfg.pre.isPrefixOf stem = true → cfg.suf.isSuffixOf stem = true →
    stem.length ≤ cfg.pre.length + cfg.suf.length →
    (processFile cfg st (.file name stem ext statOk size mod)).1.tools = st.tools
    ∧ (processFile cfg st (.file name stem ext statOk size mod)).1.loaded = st.loaded
    ∧ (processFile cfg st (.file name stem ext statOk size mod)).2 = none := by
  intro cfg st name stem ext statOk size mod hp hs hlen
  by_cases hext : ext ≠ ".py".toList
  · unfold processFile
    dsimp only
    rw [if_pos hext]
    exact ⟨rfl, rfl, rfl⟩
  · unfold processFile
    dsimp only
    rw [if_neg hext, if_neg (by simp [hp, hs]), if_pos hlen]
    exact ⟨rfl, rfl, rfl⟩

theorem claim_C7_witness :
    (processFile ⟨⟨.NONE, false⟩, [], "_tool".toList, false, false, fun _ _ => [], 0⟩
        emptyScan (.file ("_tool.py".toList) ("_tool".toList) (".py".toList) true 5
          .importFail)).1.tools = emptyScan.tools :=
  (claim_C7 ⟨⟨.NONE, false⟩, [], "_tool".toList, false, false, fun _ _ => [], 0⟩
    emptyScan ("_tool.py".toList) ("_tool".toList) (".py".toList) true 5 .importFail
    (by decide) (by decide) (by decide)).1

/-- Names already loaded stay; the loop entries only append. -/
theorem small_mem_list (e : FSEntry) (es : List FSEntry) (he : e ∈ es) (nm : Str)
    (h : nm ∈ smallFileNames e) : nm ∈ smallNamesList es := by
  induction es with
  | nil => cases he
  | cons x rest ih =>
      rcases List.mem_cons.mp he with h' | h'
      · subst h'
        exact List.mem_append.mpr (Or.inl h)
      · exact List.mem_append.mpr (Or.inr (ih h'))

/-- Facts about one directory's entry loop: it does not touch the
directory trace, everything it loads is a small file among the entries,
every pushed stack item is one of the entries (at depth+1), and no
exception escapes under fail-open. -/
theorem processEntries_spec (cfg : ScanCfg) (depth : Int) :
    ∀ (es : List FSEntry) (st : ScanState),
      (processEntries cfg depth es st).2.1.dirsVisited = st.dirsVisited
      ∧ (∀ nm, nm ∈ (processEntries cfg depth es st).2.1.loaded →
          nm ∈ st.loaded ∨ nm ∈ smallNamesList es)
      ∧ (∀ p, p ∈ (processEntries cfg depth es st).1 → p.1 ∈ es)
      ∧ (cfg.vs.no_throw = true → (processEntries cfg depth es st).2.2 = none)
  | [], st => by
      refine ⟨rfl, ?_, ?_, fun _ => rfl⟩
      · intro nm h; exact Or.inl h
      · intro p hp; cases hp
  | .dir dn sym readable des :: rest, st => by
      have key := fun st' => processEntries_spec cfg depth rest st'
      unfold processEntries
      dsimp only
      by_cases hsym : sym = true
      · rw [if_pos hsym]
        obtain ⟨k1, k2, k3, k4⟩ := key {st with log := (print_verbose .HIGH
          ("Skipping symlinked directory: ".toList ++ dn) cfg.vs st.log)}
        refine ⟨k1, ?_, ?_, k4⟩
        · intro nm h
          rcases k2 nm h with h' | h'
          · exact Or.inl h'
          · exact Or.inr (List.mem_append.mpr (Or.inr h'))
        · intro p hp
          exact List.mem_cons_of_mem _ (k3 p hp)
      · rw [if_neg hsym]
        by_cases hd : depth ≥ cfg.max_depth
        · rw [if_pos hd]
          obtain ⟨k1, k2, k3, k4⟩ := key {st with log := (print_verbose .HIGH
            ("Max depth reached; skipping directory: ".toList ++ dn) cfg.vs st.log)}
          refine ⟨k1, ?_, ?_, k4⟩
          · intro nm h
            rcases k2 nm h with h' | h'
            · exact Or.inl h'
            · exact Or.inr (List.mem_append.mpr (Or.inr h'))
          · intro p hp
            exact List.mem_cons_of_mem _ (k3 p hp)
        · rw [if_neg hd]
          obtain ⟨k1, k2, k3, k4⟩ := key st
          rcases hre : processEntries cfg depth rest st with ⟨pushed, st', err⟩
          rw [hre] at k1 k2 k3 k4
          dsimp only
          refine ⟨k1, ?_, ?_, k4⟩
          · intro nm h
            rcases k2 nm h with h' | h'
            · exact Or.inl h'
            · exact Or.inr (List.mem_append.mpr (Or.inr h'))
          · intro p hp
            rcases List.mem_append.mp hp with h' | h'
            · exact List.mem_cons_of_mem _ (k3 p h')
            · simp only [List.mem_singleton] at h'
              subst h'
              exact List.mem_cons_self _ _
  | .file name stem ext statOk size mod :: rest, st => by
      unfold processEntries
      dsimp only
      rcases hpf : processFile cfg st (.file name stem ext statOk size mod) with ⟨st1, e⟩
      have hload : ∀ nm, nm ∈ st1.loaded →
          nm ∈ st.loaded ∨ nm ∈ smallFileNames (.file name stem ext statOk size mod) := by
        intro nm h
        exact processFile_loaded_small cfg st _ nm (by rw [hpf]; exact h)
      have hdirs : st1.dirsVisited = st.dirsVisited := by
        have := processFile_dirs cfg st (.file name stem ext statOk size mod)
        rw [hpf] at this
        exact this
      cases e with
      | some ex =>
          refine ⟨hdirs, ?_, ?_, ?_⟩
          · intro nm h
            rcases hload nm h with h' | h'
            · exact Or.inl h'
            · exact Or.inr (List.mem_append.mpr (Or.inl h'))
          · intro p hp; cases hp
          · intro hnt
            have := processFile_noThrow cfg st (.file name stem ext statOk size mod) hnt
            rw [hpf] at this
            cases this
      | none =>
          obtain ⟨k1, k2, k3, k4⟩ := processEntries_spec cfg depth rest st1
          refine ⟨by rw [k1, hdirs], ?_, ?_, k4⟩
          · intro nm h
            rcases k2 nm h with h' | h'
            · rcases hload nm h' with h'' | h''
              · exact Or.inl h''
              · exact Or.inr (List.mem_append.mpr (Or.inl h''))
            · exact Or.inr (List.mem_append.mpr (Or.inr h'))
          · intro p hp
            exact List.mem_cons_of_mem _ (k3 p hp)

/-- At or beyond the depth limit, the entry loop pushes nothing. -/
theorem processEntries_depthCap (cfg : ScanCfg) (depth : Int)
    (hd : depth ≥ cfg.max_depth) :
    ∀ (es : List FSEntry) (st : ScanState), (processEntries cfg depth es st).1 = []
  | [], st => rfl
  | .dir dn sym readable des :: rest, st => by
      unfold processEntries
      dsimp only
      by_cases hsym : sym = true
      · rw [if_pos hsym]
        exact processEntries_depthCap cfg depth hd rest _
      · rw [if_neg hsym, if_pos hd]
        exact processEntries_depthCap cfg depth hd rest _
  | .file name stem ext statOk size mod :: rest, st => by
      unfold processEntries
      dsimp only
      rcases hpf : processFile cfg st (.file name stem ext statOk size mod) with ⟨st1, e⟩
      cases e with
      | some ex => rfl
      | none => exact processEntries_depthCap cfg depth hd rest st1

/-- The scan loop never raises under fail-open. -/
theorem scanLoop_noThrow (cfg : ScanCfg) (h : cfg.vs.no_throw = true) :
    ∀ (fu : Nat) (stack : List (FSEntry × Int)) (st : ScanState),
      (scanLoop cfg fu stack st).2 = none
  | 0, _, _ => rfl
  | _ + 1, [], _ => rfl
  | fu + 1, (f, depth) :: rest, st => by
      cases f with
      | file name stem ext statOk size mod =>
          unfold scanLoop
          dsimp only
          exact scanLoop_noThrow cfg h fu rest st
      | dir dn sym readable entries =>
          unfold scanLoop
          dsimp only
          by_cases hr : readable = true
          · rw [if_neg (by simp [hr])]
            obtain ⟨-, -, -, k4⟩ := processEntries_spec cfg depth entries _
            rcases hre : processEntries cfg depth entries _ with ⟨pushed, st', err⟩
            rw [hre] at k4
            have : err = none := k4 h
            subst this
            dsimp only
            exact scanLoop_noThrow cfg h fu (pushed ++ rest) st'
          · rw [if_pos (by simp [hr])]
            rw [if_neg (by simp [h])]
            exact scanLoop_noThrow cfg h fu rest _

/-- Everything the scan loop loads is a small file of a tree on the stack. -/
theorem scanLoop_loaded_small (cfg : ScanCfg) :
    ∀ (fu : Nat) (stack : List (FSEntry × Int)) (st : ScanState) (nm : Str),
      nm ∈ (scanLoop cfg fu stack st).1.loaded →
      nm ∈ st.loaded ∨ ∃ p, p ∈ stack ∧ nm ∈ smallFileNames p.1
  | 0, _, _, _, h => Or.inl h
  | _ + 1, [], _, _, h => Or.inl h
  | fu + 1, (f, depth) :: rest, st, nm, h => by
      cases f with
      | file name stem ext statOk size mod =>
          unfold scanLoop at h
          dsimp only at h
          rcases scanLoop_loaded_small cfg fu rest st nm h with h' | ⟨p, hp, hm⟩
          · exact Or.inl h'
          · exact Or.inr ⟨p, List.mem_cons_of_mem _ hp, hm⟩
      | dir dn sym readable entries =>
          unfold scanLoop at h
          dsimp only at h
          by_cases hr : readable = true
          · rw [if_neg (by simp [hr])] at h
            obtain ⟨-, k2, k3, -⟩ := processEntries_spec cfg depth entries
              ⟨st.tools, st.loaded, st.dirsVisited ++ [dn], print_verbose VLevel.HIGH ("Traversing dir: ".toList ++ dn) cfg.vs st.log, st.tokCalls⟩
            rcases hre : processEntries cfg depth entries
              ⟨st.tools, st.loaded, st.dirsVisited ++ [dn], print_verbose VLevel.HIGH ("Traversing dir: ".toList ++ dn) cfg.vs st.log, st.tokCalls⟩
              with ⟨pushed, st', err⟩
            rw [hre] at k2 k3 h
            have hsub : ∀ x, x ∈ st'.loaded → x ∈ st.loaded ∨ x ∈ smallNamesList entries := by
              intro x hx
              exact k2 x hx
            cases err with
            | some ex =>
                dsimp only at h
                rcases hsub nm h with h' | h'
                · exact Or.inl h'
                · exact Or.inr ⟨(.dir dn sym readable entries, depth),
                    List.mem_cons_self _ _, h'⟩
            | none =>
                dsimp only at h
                rcases scanLoop_loaded_small cfg fu (pushed ++ rest) st' nm h with h' | ⟨p, hp, hm⟩
                · rcases hsub nm h' with h'' | h''
                  · exact Or.inl h''
                  · exact Or.inr ⟨(.dir dn sym readable entries, depth),
                      List.mem_cons_self _ _, h''⟩
                · rcases List.mem_append.mp hp with hp' | hp'
                  · refine Or.inr ⟨(.dir dn sym readable entries, depth),
                      List.mem_cons_self _ _, ?_⟩
                    exact small_mem_list p.1 entries (k3 p hp') nm hm
                  · exact Or.inr ⟨p, List.mem_cons_of_mem _ hp', hm⟩
          · rw [if_pos (by simp [hr])] at h
            by_cases hnt : cfg.vs.no_throw = true
            · rw [if_neg (by simp [hnt])] at h
              rcases scanLoop_loaded_small cfg fu rest _ nm h with h' | ⟨p, hp, hm⟩
              · exact Or.inl h'
              · exact Or.inr ⟨p, List.mem_cons_of_mem _ hp, hm⟩
            · rw [if_pos (by simp [hnt])] at h
              exact Or.inl h

/-- The scan loop on an empty stack stops. -/
theorem scanLoop_nil (cfg : ScanCfg) (fu : Nat) (st : ScanState) :
    scanLoop cfg fu [] st = (st, none) := by
  cases fu <;> rfl

/-- Names of the plain files directly in a sibling list. -/
def immediateFileNames : List FSEntry → List Str
  | [] => []
  | .file name _ _ _ _ _ :: r => name :: immediateFileNames r
  | .dir _ _ _ _ :: r => immediateFileNames r

/-- One directory's entry loop only ever loads its own plain files. -/
theorem processEntries_loaded_imm (cfg : ScanCfg) (depth : Int) :
    ∀ (es : List FSEntry) (st : ScanState) (nm : Str),
      nm ∈ (processEntries cfg depth es st).2.1.loaded →
      nm ∈ st.loaded ∨ nm ∈ immediateFileNames es
  | [], st, nm => fun h => Or.inl h
  | .dir dn sym readable des :: rest, st, nm => by
      intro h
      unfold processEntries at h
      dsimp only at h
      by_cases hsym : sym = true
      · rw [if_pos hsym] at h
        exact (processEntries_loaded_imm cfg depth rest _ nm h).imp_left (fun hx => hx)
      · rw [if_neg hsym] at h
        by_cases hd : depth ≥ cfg.max_depth
        · rw [if_pos hd] at h
          exact (processEntries_loaded_imm cfg depth rest _ nm h).imp_left (fun hx => hx)
        · rw [if_neg hd] at h
          rcases hre : processEntries cfg depth rest st with ⟨pushed, st', err⟩
          rw [hre] at h
          dsimp only at h
          exact processEntries_loaded_imm cfg depth rest st nm (by rw [hre]; exact h)
  | .file name stem ext statOk size mod :: rest, st, nm => by
      intro h
      unfold processEntries at h
      dsimp only at h
      rcases hpf : processFile cfg st (.file name stem ext statOk size mod) with ⟨st1, e⟩
      rw [hpf] at h
      have hload : ∀ x, x ∈ st1.loaded → x ∈ st.loaded ∨ x = name := by
        intro x hx
        rcases processFile_loaded_small cfg st _ x (by rw [hpf]; exact hx) with h' | h'
        · exact Or.inl h'
        · simp only [smallFileNames] at h'
          right
          by_cases hsz : size ≤ MAX_TOOL_FILE_SIZE_BYTES
          · rw [if_pos hsz] at h'
            exact List.mem_singleton.mp h'
          · rw [if_neg hsz] at h'
            cases h'
      cases e with
      | some ex =>
          dsimp only at h
          rcases hload nm h with h' | h'
          · exact Or.inl h'
          · exact Or.inr (h' ▸ List.mem_cons_self _ _)
      | none =>
          dsimp only at h
          rcases processEntries_loaded_imm cfg depth rest st1 nm h with h' | h'
          · rcases hload nm h' with h'' | h''
            · exact Or.inl h''
            · exact Or.inr (h'' ▸ List.mem_cons_self _ _)
          · exact Or.inr (List.mem_cons_of_mem _ h')

/-- **C9**: the scan never loads an oversize candidate: every file name in
the load trace of a finished or aborted scan is the name of a file within
the 1 MiB ceiling, and at the per-file level an oversize candidate is
skipped without touching the registry or the load trace, under either
propagation policy (the size guard sits strictly before the import step). -/
theorem claim_C9 :
    (∀ (base : FSEntry) (vs : VSettings) (md : Int) (p0 s0 : Option Str)
      (pf vd : Bool) (tokO : Nat → Nat → Str) (nm : Str),
      nm ∈ (find_tools_json base vs md p0 s0 pf vd tokO).1.loaded →
      nm ∈ smallFileNames base)
    ∧ ∀ (cfg : ScanCfg) (st : ScanState) (name stem ext : Str) (size : Nat)
        (mod : LoadResult), size > MAX_TOOL_FILE_SIZE_BYTES →
        (processFile cfg st (.file name stem ext true size mod)).1.tools = st.tools
        ∧ (processFile cfg st (.file name stem ext true size mod)).1.loaded = st.loaded
        ∧ (processFile cfg st (.file name stem ext true size mod)).2 = none := by
  constructor
  · intro base vs md p0 s0 pf vd tokO nm h
    unfold find_tools_json at h
    by_cases hmd : md < 0
    · rw [if_pos hmd] at h
      cases h
    · rw [if_neg hmd] at h
      cases base with
      | file name stem ext statOk size mod =>
          dsimp only at h
          cases h
      | dir dn sym readable entries =>
          dsimp only at h
          rcases scanLoop_loaded_small _ _ _ _ nm h with h' | ⟨p, hp, hm⟩
          · cases h'
          · simp only [List.mem_singleton] at hp
            subst hp
            exact hm
  · intro cfg st name stem ext size mod hsz
    unfold processFile
    dsimp only
    (repeat' split) <;>
      first
        | exact ⟨rfl, rfl, rfl⟩
        | simp_all

/-- A runner used by concrete scan instances below. -/
def wRunner : Args → Except PyExc JVal := fun _ => .ok .null

/-- A well-formed small tool file and its base directory. -/
def wFile : FSEntry :=
  .file ("a_tool.py".toList) ("a_tool".toList) (".py".toList) true 5
    (.loaded (.callable wRunner) (.str ("\x7b\x7d".toList)))

def wBase : FSEntry := .dir ("base".toList) false true [wFile]

theorem claim_C9_witness : ("a_tool.py".toList) ∈ smallFileNames wBase :=
  claim_C9.1 wBase ⟨.NONE, true⟩ 0 none (some ("_tool".toList)) false false
    (fun _ _ => []) ("a_tool.py".toList) (by decide)

/-- **C6**: a scan with `max_depth = 0` lists only the base directory itself
(the directory-visit trace is exactly the base, readable or not, under
either policy), and consequently every file whose top-level code runs is a
plain file sitting directly in the base directory — no entry of any
subdirectory is ever visited. -/
theorem claim_C6 : ∀ (dn : Str) (sym readable : Bool) (entries : List FSEntry)
    (vs : VSettings) (p0 s0 : Option Str) (pf vd : Bool) (tokO : Nat → Nat → Str),
    (find_tools_json (.dir dn sym readable entries) vs 0 p0 s0 pf vd tokO).1.dirsVisited = [dn]
    ∧ ∀ nm, nm ∈ (find_tools_json (.dir dn sym readable entries) vs 0 p0 s0 pf vd tokO).1.loaded →
        nm ∈ immediateFileNames entries := by
  intro dn sym readable entries vs p0 s0 pf vd tokO
  unfold find_tools_json
  rw [if_neg (by omega : ¬(0 : Int) < 0)]
  dsimp only
  unfold scanLoop
  dsimp only
  set cfg : ScanCfg := ⟨vs, p0.getD [], s0.getD [], pf, if pf then false else vd, tokO, 0⟩ with hcfg
  set st1 : ScanState := ⟨emptyScan.tools, emptyScan.loaded, emptyScan.dirsVisited ++ [dn],
    print_verbose VLevel.HIGH ("Traversing dir: ".toList ++ dn) cfg.vs emptyScan.log,
    emptyScan.tokCalls⟩ with hst1
  by_cases hr : readable = true
  · rw [if_neg (by simp [hr])]
    have hcap : (processEntries cfg 0 entries st1).1 = [] :=
      processEntries_depthCap cfg 0 (le_refl 0) entries st1
    obtain ⟨k1, -, -, -⟩ := processEntries_spec cfg 0 entries st1
    have kimm := processEntries_loaded_imm cfg 0 entries st1
    rcases hre : processEntries cfg 0 entries st1 with ⟨pushed, st', err⟩
    rw [hre] at hcap k1
    subst hcap
    rw [hre] at kimm
    cases err with
    | some ex =>
        dsimp only
        constructor
        · exact k1
        · intro nm h
          rcases kimm nm h with h' | h'
          · cases h'
          · exact h'
    | none =>
        dsimp only
        rw [List.nil_append, scanLoop_nil]
        constructor
        · exact k1
        · intro nm h
          rcases kimm nm h with h' | h'
          · cases h'
          · exact h'
  · rw [if_pos (by simp [hr])]
    by_cases hnt : cfg.vs.no_throw = true
    · rw [if_neg (not_not_intro hnt)]
      rw [scanLoop_nil]
      exact ⟨rfl, fun nm h => absurd h (by simp [emptyScan])⟩
    · rw [if_pos hnt]
      exact ⟨rfl, fun nm h => absurd h (by simp [emptyScan])⟩

theorem claim_C6_witness :
    (find_tools_json wBase ⟨.NONE, true⟩ 0 none (some ("_tool".toList)) false false
      (fun _ _ => [])).1.dirsVisited = ["base".toList] :=
  (claim_C6 ("base".toList) false true [wFile] ⟨.NONE, true⟩ none
    (some ("_tool".toList)) false false (fun _ _ => [])).1

/-- A candidate file whose import raises, and a base directory holding it. -/
def importFailFile : FSEntry :=
  .file ("a_tool.py".toList) ("a_tool".toList) (".py".toList) true 10 .importFail

def importFailBase : FSEntry := .dir ("base".toList) false true [importFailFile]

/-- **C2 counterexample**: under the strict policy (`no_throw = False`) a
per-file import failure does not skip-and-continue — the scan aborts with
the import exception, so per-file discovery failures do not all degrade to
skip-and-continue under fail-fast as the claim states. -/
theorem claim_C2_counterexample :
    (find_tools_json importFailBase ⟨.NONE, false⟩ 0 none (some ("_tool".toList))
      false false (fun _ _ => [])).2 = some (.importErr ("import failed".toList)) := by
  rfl

/-- **C2 (amended)**: per-file discovery failures always skip-and-continue
under fail-open — with `no_throw = True` no exception whatsoever escapes a
scan — while under fail-fast only the oversize check unconditionally
skips: an oversize candidate never touches the registry or the load trace
and raises nothing under either policy (import, extraction and descriptor
failures instead follow the active policy, as the counterexample shows). -/
theorem claim_C2_amended :
    (∀ (base : FSEntry) (vs : VSettings) (md : Int) (p0 s0 : Option Str)
      (pf vd : Bool) (tokO : Nat → Nat → Str), vs.no_throw = true →
      (find_tools_json base vs md p0 s0 pf vd tokO).2 = none)
    ∧ ∀ (cfg : ScanCfg) (st : ScanState) (name stem ext : Str) (size : Nat)
        (mod : LoadResult), size > MAX_TOOL_FILE_SIZE_BYTES →
        (processFile cfg st (.file name stem ext true size mod)).1.tools = st.tools
        ∧ (processFile cfg st (.file name stem ext true size mod)).1.loaded = st.loaded
        ∧ (processFile cfg st (.file name stem ext true size mod)).2 = none := by
  constructor
  · intro base vs md p0 s0 pf vd tokO h
    unfold find_tools_json
    by_cases hmd : md < 0
    · rw [if_pos hmd, h]
      rfl
    · rw [if_neg hmd]
      cases base with
      | file name stem ext statOk size mod =>
          dsimp only
          rw [h]
          rfl
      | dir dn sym readable entries =>
          dsimp only
          exact scanLoop_noThrow _ h _ _ _
  · intro cfg st name stem ext size mod hsz
    unfold processFile
    dsimp only
    (repeat' split) <;>
      first
        | exact ⟨rfl, rfl, rfl⟩
        | simp_all

theorem claim_C2_amended_witness :
    (find_tools_json importFailBase ⟨.NONE, true⟩ 0 none (some ("_tool".toList))
      false false (fun _ _ => [])).2 = none :=
  claim_C2_amended.1 importFailBase ⟨.NONE, true⟩ 0 none (some ("_tool".toList))
    false false (fun _ _ => []) rfl

/-- A candidate that passes every filter reaches the load/extract tail. -/
theorem processFile_candidate (cfg : ScanCfg) (st : ScanState) (name stem : Str)
    (size : Nat) (mod : LoadResult)
    (hp : cfg.pre.isPrefixOf stem = true) (hs : cfg.suf.isSuffixOf stem = true)
    (hlen : cfg.pre.length + cfg.suf.length < stem.length)
    (hsz : size ≤ MAX_TOOL_FILE_SIZE_BYTES) :
    processFile cfg st (.file name stem (".py".toList) true size mod)
      = registerLoaded cfg ⟨st.tools, st.loaded ++ [name], st.dirsVisited, st.log, st.tokCalls⟩
          name (moduleNameOf cfg stem) mod := by
  unfold processFile
  dsimp only
  rw [if_neg (by simp), if_neg (by simp [hp, hs]), if_neg (by omega), if_neg (by simp),
    if_neg (by omega)]

/-- **C8**: when an accepted candidate normalizes to a name that is already
a registry key, the new entry overwrites the old one (the lookup afterwards
yields the later file's descriptor and callable), the `Overwriting` warning
is emitted whenever diagnostics are not suppressed, and no exception
escapes under either policy. -/
theorem claim_C8 : ∀ (cfg : ScanCfg) (st : ScanState) (name stem mn : Str)
    (size : Nat) (tr : RunnerBinding) (ds : DefBinding) (d : Str),
    cfg.pre.isPrefixOf stem = true → cfg.suf.isSuffixOf stem = true →
    cfg.pre.length + cfg.suf.length < stem.length →
    size ≤ MAX_TOOL_FILE_SIZE_BYTES →
    moduleNameOf cfg stem = mn →
    extractFields cfg.vs cfg.prettify cfg.validate (cfg.tokO st.tokCalls) tr ds = .ok d →
    containsKey st.tools mn = true →
    (processFile cfg st (.file name stem (".py".toList) true size (.loaded tr ds))).2 = none
    ∧ lookupAssoc
        (processFile cfg st (.file name stem (".py".toList) true size (.loaded tr ds))).1.tools
        mn = some ⟨d, tr⟩
    ∧ (cfg.vs.verbose_level ≠ .NONE →
        ("Overwriting '".toList ++ mn ++ "' tool".toList)
          ∈ (processFile cfg st (.file name stem (".py".toList) true size (.loaded tr ds))).1.log) := by
  intro cfg st name stem mn size tr ds d hp hs hlen hsz hmn hex hcol
  rw [processFile_candidate cfg st name stem size (.loaded tr ds) hp hs hlen hsz]
  rw [hmn] at *
  rw [registerLoaded_ok cfg ⟨st.tools, st.loaded ++ [name], st.dirsVisited, st.log, st.tokCalls⟩
    name mn tr ds d hex]
  refine ⟨rfl, ?_, ?_⟩
  · exact lookupAssoc_dictInsert st.tools mn ⟨d, tr⟩
  · intro hlvl
    dsimp only
    rw [if_pos hcol]
    exact mem_print_verbose (self_mem_print_verbose_LOW hlvl)

theorem claim_C8_witness :
    lookupAssoc (processFile ⟨⟨.LOW, true⟩, [], "_tool".toList, false, false, fun _ _ => [], 0⟩
        ⟨[("a".toList, ⟨"old".toList, .callable wRunner⟩)], [], [], [], 0⟩
        (.file ("a_tool.py".toList) ("a_tool".toList) (".py".toList) true 5
          (.loaded (.callable wRunner) (.str ("x".toList))))).1.tools ("a".toList)
      = some ⟨"x".toList, .callable wRunner⟩ :=
  (claim_C8 ⟨⟨.LOW, true⟩, [], "_tool".toList, false, false, fun _ _ => [], 0⟩
    ⟨[("a".toList, ⟨"old".toList, .callable wRunner⟩)], [], [], [], 0⟩
    ("a_tool.py".toList) ("a_tool".toList) ("a".toList) 5 (.callable wRunner)
    (.str ("x".toList)) ("x".toList)
    (by decide) (by decide) (by decide) (by decide) (by rfl) (by rfl) (by rfl)).2.1

/-- The registry-entry invariant: a non-empty key and a callable runner. -/
def goodEntry (p : Str × ToolEntry) : Prop :=
  p.1 ≠ [] ∧ ∃ f, p.2.runner = RunnerBinding.callable f

/-- An accepted candidate's registry name is never empty. -/
theorem moduleNameOf_ne_nil (cfg : ScanCfg) (stem : Str)
    (hlen : cfg.pre.length + cfg.suf.length < stem.length) :
    moduleNameOf cfg stem ≠ [] := by
  unfold moduleNameOf
  dsimp only
  by_cases hsuf : cfg.suf ≠ []
  · rw [if_pos hsuf]
    have : ((stem.drop cfg.pre.length).take
        ((stem.drop cfg.pre.length).length - cfg.suf.length)).length
        = min ((stem.drop cfg.pre.length).length - cfg.suf.length)
            (stem.drop cfg.pre.length).length := List.length_take _ _
    intro hnil
    rw [hnil] at this
    simp only [List.length_nil, List.length_drop] at this
    omega
  · rw [if_neg hsuf]
    intro hnil
    have := congrArg List.length hnil
    simp only [List.length_drop, List.length_nil] at this
    omega

/-- `registerLoaded` preserves the registry invariant. -/
theorem registerLoaded_good (cfg : ScanCfg) (st : ScanState) (name mn : Str)
    (mod : LoadResult) (hmn : mn ≠ [])
    (hst : ∀ p ∈ st.tools, goodEntry p) :
    ∀ p ∈ (registerLoaded cfg st name mn mod).1.tools, goodEntry p := by
  cases mod with
  | importFail =>
      unfold registerLoaded
      dsimp only
      intro p hp
      refine hst p ?_
      revert hp
      (repeat' split) <;> exact fun hp => hp
  | loaded tr ds =>
      cases hex : extractFields cfg.vs cfg.prettify cfg.validate (cfg.tokO st.tokCalls) tr ds with
      | error e =>
          unfold registerLoaded
          dsimp only
          rw [hex]
          dsimp only
          intro p hp
          refine hst p ?_
          revert hp
          (repeat' split) <;> exact fun hp => hp
      | ok d =>
          rw [registerLoaded_ok cfg st name mn tr ds d hex]
          intro p hp
          rcases mem_dictInsert st.tools mn ⟨d, tr⟩ p hp with h' | h'
          · subst h'
            obtain ⟨f, hf⟩ := extractFields_callable hex
            exact ⟨hmn, f, by rw [hf]⟩
          · exact hst p h'

/-- `processFile` preserves the registry invariant. -/
theorem processFile_good (cfg : ScanCfg) (st : ScanState) (f : FSEntry)
    (hst : ∀ p ∈ st.tools, goodEntry p) :
    ∀ p ∈ (processFile cfg st f).1.tools, goodEntry p := by
  cases f with
  | dir name symlink readable entries => exact hst
  | file name stem ext statOk size mod =>
      unfold processFile
      dsimp only
      (repeat' split) <;>
        first
          | exact hst
          | (rename_i h1 h2 h3 h4 h5
             refine registerLoaded_good cfg _ name (moduleNameOf cfg stem) mod ?_ hst
             refine moduleNameOf_ne_nil cfg stem ?_
             omega)

/-- The entry loop preserves the registry invariant. -/
theorem processEntries_good (cfg : ScanCfg) (depth : Int) :
    ∀ (es : List FSEntry) (st : ScanState),
      (∀ p ∈ st.tools, goodEntry p) →
      ∀ p ∈ (processEntries cfg depth es st).2.1.tools, goodEntry p
  | [], st, hst => hst
  | .dir dn sym readable des :: rest, st, hst => by
      unfold processEntries
      dsimp only
      by_cases hsym : sym = true
      · rw [if_pos hsym]
        exact processEntries_good cfg depth rest _ hst
      · rw [if_neg hsym]
        by_cases hd : depth ≥ cfg.max_depth
        · rw [if_pos hd]
          exact processEntries_good cfg depth rest _ hst
        · rw [if_neg hd]
          rcases hre : processEntries cfg depth rest st with ⟨pushed, st', err⟩
          dsimp only
          have := processEntries_good cfg depth rest st hst
          rw [hre] at this
          exact this
  | .file name stem ext statOk size mod :: rest, st, hst => by
      unfold processEntries
      dsimp only
      rcases hpf : processFile cfg st (.file name stem ext statOk size mod) with ⟨st1, e⟩
      have hgood1 : ∀ p ∈ st1.tools, goodEntry p := by
        have := processFile_good cfg st (.file name stem ext statOk size mod) hst
        rw [hpf] at this
        exact this
      cases e with
      | some ex => exact hgood1
      | none => exact processEntries_good cfg depth rest st1 hgood1

/-- The scan loop preserves the registry invariant. -/
theorem scanLoop_good (cfg : ScanCfg) :
    ∀ (fu : Nat) (stack : List (FSEntry × Int)) (st : ScanState),
      (∀ p ∈ st.tools, goodEntry p) →
      ∀ p ∈ (scanLoop cfg fu stack st).1.tools, goodEntry p
  | 0, _, _, hst => hst
  | _ + 1, [], _, hst => hst
  | fu + 1, (f, depth) :: rest, st, hst => by
      cases f with
      | file name stem ext statOk size mod =>
          unfold scanLoop
          dsimp only
          exact scanLoop_good cfg fu rest st hst
      | dir dn sym readable entries =>
          unfold scanLoop
          dsimp only
          by_cases hr : readable = true
          · rw [if_neg (by simp [hr])]
            rcases hre : processEntries cfg depth entries
              ⟨st.tools, st.loaded, st.dirsVisited ++ [dn], print_verbose VLevel.HIGH ("Traversing dir: ".toList ++ dn) cfg.vs st.log, st.tokCalls⟩
              with ⟨pushed, st', err⟩
            have hgood' : ∀ p ∈ st'.tools, goodEntry p := by
              have := processEntries_good cfg depth entries
                ⟨st.tools, st.loaded, st.dirsVisited ++ [dn], print_verbose VLevel.HIGH ("Traversing dir: ".toList ++ dn) cfg.vs st.log, st.tokCalls⟩ hst
              rw [hre] at this
              exact this
            cases err with
            | some ex => exact hgood'
            | none =>
                dsimp only
                exact scanLoop_good cfg fu (pushed ++ rest) st' hgood'
          · rw [if_pos (by simp [hr])]
            by_cases hnt : cfg.vs.no_throw = true
            · rw [if_neg (by simp [hnt])]
              exact scanLoop_good cfg fu rest _ hst
            · rw [if_pos (by simp [hnt])]
              exact hst

/-- A successful lookup pinpoints a member pair. -/
theorem lookupAssoc_mem {α : Type} (kvs : List (Str × α)) (k : Str) (v : α)
    (h : lookupAssoc kvs k = some v) : (k, v) ∈ kvs := by
  induction kvs with
  | nil => cases h
  | cons p rest ih =>
      obtain ⟨k', v'⟩ := p
      by_cases hk : k' = k
      · subst hk
        rw [lookupAssoc, if_pos rfl] at h
        cases h
        exact List.mem_cons_self _ _
      · rw [lookupAssoc, if_neg hk] at h
        exact List.mem_cons_of_mem _ (ih h)

/-- **C10**: every registry a scan hands back satisfies the entry
invariant: each key is a non-empty string and each entry's runner is a
callable (the description is a string by construction of the registry).
The extraction step rejects non-callable entry points and non-string
descriptors before anything is inserted. -/
theorem claim_C10 : ∀ (base : FSEntry) (vs : VSettings) (md : Int)
    (p0 s0 : Option Str) (pf vd : Bool) (tokO : Nat → Nat → Str) (nm : Str)
    (e : ToolEntry),
    lookupAssoc (find_tools_json base vs md p0 s0 pf vd tokO).1.tools nm = some e →
    nm ≠ [] ∧ ∃ f, e.runner = RunnerBinding.callable f := by
  intro base vs md p0 s0 pf vd tokO nm e h
  have hgood : ∀ p ∈ (find_tools_json base vs md p0 s0 pf vd tokO).1.tools, goodEntry p := by
    unfold find_tools_json
    by_cases hmd : md < 0
    · rw [if_pos hmd]
      intro p hp
      cases hp
    · rw [if_neg hmd]
      cases base with
      | file name stem ext statOk size mod =>
          dsimp only
          intro p hp
          cases hp
      | dir dn sym readable entries =>
          dsimp only
          exact scanLoop_good _ _ _ _ (fun p hp => absurd hp (by simp [emptyScan]))
  exact hgood (nm, e) (lookupAssoc_mem _ nm e h)

theorem claim_C10_witness :
    ("a".toList ≠ []) ∧ ∃ f,
      (ToolEntry.mk ("\x7b\x7d".toList) (.callable wRunner)).runner
        = RunnerBinding.callable f :=
  claim_C10 wBase ⟨.NONE, true⟩ 0 none (some ("_tool".toList)) false false
    (fun _ _ => []) ("a".toList) ⟨"\x7b\x7d".toList, .callable wRunner⟩ (by rfl)

/-! ### Decimal digits: `natDigs` inverts through `digsTake`/`digsVal` -/

theorem natDigsF_acc (fu : Nat) : ∀ (n : Nat) (acc : Str),
    natDigsF fu n acc = natDigsF fu n [] ++ acc := by
  induction fu with
  | zero => intro n acc; rfl
  | succ fu ih =>
      intro n acc
      unfold natDigsF
      by_cases h : n < 10
      · rw [if_pos h, if_pos h]
        rfl
      · rw [if_neg h, if_neg h, ih (n / 10), ih (n / 10) [digCh (n % 10)]]
        simp

/-- Any two adequate fuels give the same digits. -/
theorem natDigsF_fuel : ∀ (n fu fu' : Nat), n < 10 ^ fu → n < 10 ^ fu' →
    0 < fu → 0 < fu' → natDigsF fu n [] = natDigsF fu' n [] := by
  intro n
  induction n using Nat.strong_induction_on with
  | _ n ih =>
      intro fu fu' hfu hfu' h0 h0'
      obtain ⟨f1, rfl⟩ := Nat.exists_eq_succ_of_ne_zero (Nat.pos_iff_ne_zero.mp h0)
      obtain ⟨f2, rfl⟩ := Nat.exists_eq_succ_of_ne_zero (Nat.pos_iff_ne_zero.mp h0')
      unfold natDigsF
      by_cases h : n < 10
      · rw [if_pos h, if_pos h]
      · rw [if_neg h, if_neg h, natDigsF_acc, natDigsF_acc f2]
        have hd : n / 10 < n := Nat.div_lt_self (by omega) (by omega)
        rcases Nat.eq_zero_or_pos f1 with hf1 | hf1
        · subst hf1; simp at hfu; omega
        rcases Nat.eq_zero_or_pos f2 with hf2 | hf2
        · subst hf2; simp at hfu'; omega
        have hq1 : n / 10 < 10 ^ f1 := by
          apply (Nat.div_lt_iff_lt_mul (by omega : 0 < 10)).mpr
          calc n < 10 ^ (f1 + 1) := hfu
            _ = 10 ^ f1 * 10 := by rw [pow_succ]
        have hq2 : n / 10 < 10 ^ f2 := by
          apply (Nat.div_lt_iff_lt_mul (by omega : 0 < 10)).mpr
          calc n < 10 ^ (f2 + 1) := hfu'
            _ = 10 ^ f2 * 10 := by rw [pow_succ]
        rw [ih (n / 10) hd f1 f2 hq1 hq2 hf1 hf2]

/-- The canonical unfolding of `natDigs`: last digit peeled off. -/
theorem natDigs_unfold (n : Nat) :
    natDigs n = (if n < 10 then [] else natDigs (n / 10)) ++ [digCh (n % 10)] := by
  by_cases h : n < 10
  · rw [if_pos h]
    unfold natDigs natDigsF
    rw [if_pos h, Nat.mod_eq_of_lt h]
    rfl
  · rw [if_neg h]
    show natDigsF (n + 1) n [] = _
    unfold natDigsF
    rw [if_neg h, natDigsF_acc]
    congr 1
    exact natDigsF_fuel (n / 10) n (n / 10 + 1)
      (lt_of_le_of_lt (Nat.div_le_self n 10) (Nat.lt_pow_self (by omega) n))
      (lt_of_lt_of_le (Nat.lt_pow_self (by omega) (n / 10))
        (Nat.pow_le_pow_right (by omega) (by omega)))
      (by omega) (by omega)

/-- Digit characters decode to their value. -/
theorem digCh_spec (k : Nat) (h : k < 10) :
    (digCh k).toNat - '0'.toNat = k ∧ isDig (digCh k) = true := by
  revert h
  exact (by decide : ∀ m, m < 10 → (digCh m).toNat - '0'.toNat = m ∧ isDig (digCh m) = true) k

theorem natDigs_ne_nil (n : Nat) : natDigs n ≠ [] := by
  rw [natDigs_unfold]
  simp

theorem natDigs_digits (n : Nat) : ∀ c ∈ natDigs n, isDig c = true := by
  induction n using Nat.strong_induction_on with
  | _ n ih =>
      rw [natDigs_unfold]
      intro c hc
      rcases List.mem_append.mp hc with h' | h'
      · by_cases h : n < 10
        · rw [if_pos h] at h'; cases h'
        · rw [if_neg h] at h'
          exact ih (n / 10) (Nat.div_lt_self (by omega) (by omega)) c h'
      · rw [List.mem_singleton] at h'
        subst h'
        exact (digCh_spec (n % 10) (Nat.mod_lt _ (by omega))).2

/-- The head of a rendered number is a digit. -/
theorem natDigs_cons (n : Nat) : ∃ c t, natDigs n = c :: t ∧ isDig c = true := by
  rcases h : natDigs n with _ | ⟨c, t⟩
  · exact absurd h (natDigs_ne_nil n)
  · exact ⟨c, t, rfl, natDigs_digits n c (h ▸ List.mem_cons_self _ _)⟩

/-- Remainders that cannot extend a digit run. -/
def noDigB : Str → Bool
  | [] => true
  | c :: _ => !isDig c

theorem digsTake_stop (r : Str) (hr : noDigB r = true) : digsTake r = ([], r) := by
  cases r with
  | nil => rfl
  | cons c t =>
      simp only [noDigB, Bool.not_eq_true'] at hr
      simp [digsTake, hr]

theorem digsTake_run (ds : Str) (hds : ∀ c ∈ ds, isDig c = true) (r : Str)
    (hr : noDigB r = true) : digsTake (ds ++ r) = (ds, r) := by
  induction ds with
  | nil => simpa using digsTake_stop r hr
  | cons c t ih =>
      have hc := hds c (List.mem_cons_self _ _)
      have ht := ih (fun x hx => hds x (List.mem_cons_of_mem _ hx))
      simp [digsTake, hc, ht]

theorem digsVal_natDigs (n : Nat) : digsVal (natDigs n) = n := by
  induction n using Nat.strong_induction_on with
  | _ n ih =>
      rw [natDigs_unfold]
      unfold digsVal
      rw [List.foldl_append]
      by_cases h : n < 10
      · rw [if_pos h]
        simp only [List.foldl_nil, List.foldl_cons]
        rw [(digCh_spec (n % 10) (Nat.mod_lt _ (by omega))).1]
        omega
      · rw [if_neg h]
        simp only [List.foldl_cons, List.foldl_nil]
        have := ih (n / 10) (Nat.div_lt_self (by omega) (by omega))
        unfold digsVal at this
        rw [this, (digCh_spec (n % 10) (Nat.mod_lt _ (by omega))).1]
        omega

/-! ### String escaping inverts through `strBody` -/

theorem hexv_hexCh (k : Nat) (h : k < 16) : hexv (hexCh k) = some k := by
  revert h
  exact (by decide : ∀ m, m < 16 → hexv (hexCh m) = some m) k

/-- Decoding one escaped character undoes `escCh`. -/
theorem strBody_escCh (c : Char) (acc rest : Str) :
    strBody acc (escCh c ++ rest) = strBody (c :: acc) rest := by
  unfold escCh
  by_cases h1 : c = '"'
  · subst h1; rfl
  · rw [if_neg h1]
    by_cases h2 : c = '\\'
    · subst h2; rfl
    · rw [if_neg h2]
      by_cases h3 : c = '\n'
      · subst h3; rfl
      · rw [if_neg h3]
        by_cases h4 : c = '\t'
        · subst h4; rfl
        · rw [if_neg h4]
          by_cases h5 : c = '\r'
          · subst h5; rfl
          · rw [if_neg h5]
            by_cases h6 : c = Char.ofNat 8
            · subst h6; rfl
            · rw [if_neg h6]
              by_cases h7 : c = Char.ofNat 12
              · subst h7; rfl
              · rw [if_neg h7]
                by_cases h8 : c.toNat < 32
                · rw [if_pos h8]
                  show strBody acc ('\\' :: 'u' :: '0' :: '0' :: hexCh (c.toNat / 16)
                    :: hexCh (c.toNat % 16) :: rest) = _
                  simp only [strBody]
                  rw [show hexv '0' = some 0 from rfl,
                    hexv_hexCh (c.toNat / 16) (by omega),
                    hexv_hexCh (c.toNat % 16) (Nat.mod_lt _ (by omega))]
                  dsimp only
                  have harith : ((0 * 16 + 0) * 16 + c.toNat / 16) * 16 + c.toNat % 16
                      = c.toNat := by omega
                  rw [harith, Char.ofNat_toNat]
                · rw [if_neg h8]
                  show strBody acc (c :: rest) = strBody (c :: acc) rest
                  conv_lhs => rw [strBody.eq_def]
                  simp [h1, h2]

/-- Decoding a whole escaped body stops exactly at the closing quote. -/
theorem strBody_escStr : ∀ (s acc r : Str),
    strBody acc (escStr s ++ '"' :: r) = some (acc.reverse ++ s, r)
  | [], acc, r => by simp [escStr, strBody]
  | c :: t, acc, r => by
      show strBody acc ((escCh c ++ escStr t) ++ '"' :: r) = _
      rw [List.append_assoc, strBody_escCh, strBody_escStr t (c :: acc) r]
      simp

/-! ### Whitespace and head-character facts -/

theorem wsDrop_cons_noWs {c : Char} (t : Str) (h : isJsonWs c = false) :
    wsDrop (c :: t) = c :: t := by
  simp [wsDrop, h]

theorem wsDrop_indSp (k : Nat) (s : Str) : wsDrop (indSp k ++ s) = wsDrop s := by
  induction k with
  | zero => rfl
  | succ k ih =>
      show wsDrop (List.replicate (k + 1) ' ' ++ s) = wsDrop s
      rw [List.replicate_succ, List.cons_append]
      show wsDrop (' ' :: (List.replicate k ' ' ++ s)) = wsDrop s
      rw [show wsDrop (' ' :: (List.replicate k ' ' ++ s))
          = wsDrop (List.replicate k ' ' ++ s) from by simp [wsDrop, isJsonWs]]
      exact ih

theorem wsDrop_newline (s : Str) : wsDrop ('\n' :: s) = wsDrop s := by
  simp [wsDrop, isJsonWs]

theorem dig_not_ws {c : Char} (h : isDig c = true) : isJsonWs c = false := by
  by_contra hw
  rw [Bool.not_eq_false] at hw
  simp only [isJsonWs, Bool.or_eq_true, decide_eq_true_eq] at hw
  rcases hw with ((h1 | h1) | h1) | h1 <;> (subst h1; exact absurd h (by decide))

theorem dig_ne_chars {c : Char} (h : isDig c = true) :
    c ≠ ']' ∧ c ≠ '}' ∧ c ≠ 'n' ∧ c ≠ 't' ∧ c ≠ 'f' ∧ c ≠ '"' ∧ c ≠ '['
    ∧ c ≠ '{' ∧ c ≠ '-' ∧ c ≠ ',' := by
  refine ⟨?_, ?_, ?_, ?_, ?_, ?_, ?_, ?_, ?_, ?_⟩ <;>
    (intro heq; subst heq; exact absurd h (by decide))

/-- Every serialized value starts with a character that is not whitespace,
not a digit-run continuation hazard, and closes no bracket. -/
theorem dumpsCompact_head (v : JVal) :
    ∃ c t, dumpsCompact v = c :: t ∧ isJsonWs c = false ∧ c ≠ ']' ∧ c ≠ '}' := by
  cases v with
  | null => exact ⟨_, _, rfl, by decide, by decide, by decide⟩
  | bool b => cases b <;> exact ⟨_, _, rfl, by decide, by decide, by decide⟩
  | str s => exact ⟨_, _, rfl, by decide, by decide, by decide⟩
  | arr xs => exact ⟨_, _, rfl, by decide, by decide, by decide⟩
  | obj kvs => exact ⟨_, _, rfl, by decide, by decide, by decide⟩
  | num n =>
      unfold dumpsCompact intDump
      by_cases hn : n < 0
      · exact ⟨'-', _, by rw [if_pos hn], by decide, by decide, by decide⟩
      · rw [if_neg hn]
        obtain ⟨c, t, hct, hc⟩ := natDigs_cons n.natAbs
        obtain ⟨hbr, hbc, -⟩ := dig_ne_chars hc
        exact ⟨c, t, hct, dig_not_ws hc, hbr, hbc⟩

/-- The canonical (fused) serialization has the same head shape. -/
theorem fusedDump_head (d : Nat) (v : JVal) :
    ∃ c t, fusedDump d v = c :: t ∧ isJsonWs c = false ∧ c ≠ ']' ∧ c ≠ '}' := by
  cases v with
  | null => exact ⟨_, _, rfl, by decide, by decide, by decide⟩
  | bool b => cases b <;> exact ⟨_, _, rfl, by decide, by decide, by decide⟩
  | str s => exact ⟨_, _, rfl, by decide, by decide, by decide⟩
  | arr xs =>
      show ∃ c t, dumpsCompact (.arr xs) = c :: t ∧ _
      exact ⟨_, _, rfl, by decide, by decide, by decide⟩
  | obj kvs =>
      cases kvs <;> exact ⟨_, _, rfl, by decide, by decide, by decide⟩
  | num n =>
      show ∃ c t, intDump n = c :: t ∧ _
      unfold intDump
      by_cases hn : n < 0
      · exact ⟨'-', _, by rw [if_pos hn], by decide, by decide, by decide⟩
      · rw [if_neg hn]
        obtain ⟨c, t, hct, hc⟩ := natDigs_cons n.natAbs
        obtain ⟨hbr, hbc, -⟩ := dig_ne_chars hc
        exact ⟨c, t, hct, dig_not_ws hc, hbr, hbc⟩

/-! ### Fuel requirements of the parser -/

mutual
/-- Fuel sufficient for `parseVal` on a serialization of `v`. -/
def pneed : JVal → Nat
  | .null => 1
  | .bool _ => 1
  | .num _ => 1
  | .str _ => 1
  | .arr xs => 1 + ineed xs
  | .obj kvs => 1 + mneed kvs

/-- Fuel sufficient for `parseItems` on serialized elements. -/
def ineed : List JVal → Nat
  | [] => 0
  | x :: xs => 1 + pneed x + ineed xs

/-- Fuel sufficient for `parseMembers` on serialized members. -/
def mneed : List (Str × JVal) → Nat
  | [] => 0
  | (_, v) :: ps => 1 + pneed v + mneed ps
end

mutual
theorem pneed_le_lenC : ∀ v : JVal, pneed v ≤ (dumpsCompact v).length
  | .null => by simp [pneed, dumpsCompact]
  | .bool b => by cases b <;> simp [pneed, dumpsCompact]
  | .num n => by
      obtain ⟨c, t, hct, -, -, -⟩ := dumpsCompact_head (.num n)
      simp [pneed, hct]
  | .str s => by simp [pneed, dumpsCompact, strDump]
  | .arr [] => by simp [pneed, ineed, dumpsCompact, dumpsItems]
  | .arr (x :: xs) => by
      have h := ineed_le_lenC (x :: xs) (by simp)
      simp only [pneed, dumpsCompact, List.length_cons, List.length_append,
        List.length_singleton]
      omega
  | .obj [] => by simp [pneed, mneed, dumpsCompact, dumpsPairs]
  | .obj (p :: ps) => by
      have h := mneed_le_lenC (p :: ps) (by simp)
      simp only [pneed, dumpsCompact, List.length_cons, List.length_append,
        List.length_singleton]
      omega

theorem ineed_le_lenC : ∀ xs : List JVal, xs ≠ [] → ineed xs ≤ (dumpsItems xs).length + 1
  | [], h => absurd rfl h
  | [x], _ => by
      have := pneed_le_lenC x
      simp only [ineed, dumpsItems, ineed]
      omega
  | x :: y :: rest, _ => by
      have h1 := pneed_le_lenC x
      have h2 := ineed_le_lenC (y :: rest) (by simp)
      simp only [ineed, dumpsItems, List.length_append, List.length_cons] at h2 ⊢
      omega

theorem mneed_le_lenC : ∀ ps : List (Str × JVal), ps ≠ [] →
    mneed ps ≤ (dumpsPairs ps).length + 1
  | [], h => absurd rfl h
  | [(k, v)], _ => by
      have := pneed_le_lenC v
      simp only [mneed, dumpsPairs, mneed, List.length_append, List.length_cons,
        strDump, escStr]
      omega
  | (k, v) :: (k2, v2) :: rest, _ => by
      have h1 := pneed_le_lenC v
      have h2 := mneed_le_lenC ((k2, v2) :: rest) (by simp)
      simp only [mneed, dumpsPairs, List.length_append, List.length_cons] at h2 ⊢
      omega
end

mutual
theorem pneed_le_lenF : ∀ (d : Nat) (v : JVal), pneed v ≤ (fusedDump d v).length
  | _, .null => by simp [pneed, fusedDump]
  | _, .bool b => by cases b <;> simp [pneed, fusedDump]
  | d, .num n => by
      obtain ⟨c, t, hct, -, -, -⟩ := fusedDump_head d (.num n)
      simp [pneed, hct]
  | _, .str s => by simp [pneed, fusedDump, strDump]
  | d, .arr xs => by
      show pneed (.arr xs) ≤ (dumpsCompact (.arr xs)).length
      exact pneed_le_lenC (.arr xs)
  | _, .obj [] => by simp [pneed, mneed, fusedDump]
  | d, .obj (p :: ps) => by
      have h := mneed_le_lenF d (p :: ps) (by simp)
      simp only [pneed, fusedDump, List.length_cons, List.length_append]
      omega

theorem mneed_le_lenF : ∀ (d : Nat) (ps : List (Str × JVal)), ps ≠ [] →
    mneed ps ≤ (fusedPairs d ps).length + 1
  | _, [], h => absurd rfl h
  | d, [(k, v)], _ => by
      have := pneed_le_lenF (d + 1) v
      simp only [mneed, fusedPairs, mneed, List.length_append, List.length_cons]
      omega
  | d, (k, v) :: (k2, v2) :: rest, _ => by
      have h1 := pneed_le_lenF (d + 1) v
      have h2 := mneed_le_lenF d ((k2, v2) :: rest) (by simp)
      simp only [mneed, fusedPairs, List.length_append, List.length_cons] at h2 ⊢
      omega
end

/-! ### Recursively duplicate-free values, as `json.loads` produces them -/

/-- `k` is not a key of the pair list. -/
def keyAbsent (k : Str) : List (Str × JVal) → Bool
  | [] => true
  | (k', _) :: r => (k' ≠ k : Bool) && keyAbsent k r

mutual
/-- Every object in the value has pairwise-distinct keys. -/
def uniqB : JVal → Bool
  | .null => true
  | .bool _ => true
  | .num _ => true
  | .str _ => true
  | .arr xs => uniqItemsB xs
  | .obj kvs => uniqPairsB kvs

def uniqItemsB : List JVal → Bool
  | [] => true
  | x :: xs => uniqB x && uniqItemsB xs

def uniqPairsB : List (Str × JVal) → Bool
  | [] => true
  | (k, v) :: r => keyAbsent k r && uniqB v && uniqPairsB r
end

/-- Inserting a fresh key appends. -/
theorem dictInsert_absent {α : Type} (kvs : List (Str × α)) (k : Str) (v : α)
    (h : containsKey kvs k = false) : dictInsert kvs k v = kvs ++ [(k, v)] := by
  induction kvs with
  | nil => rfl
  | cons p rest ih =>
      obtain ⟨k', v'⟩ := p
      simp only [containsKey, lookupAssoc] at h
      by_cases hk : k' = k
      · rw [if_pos hk] at h
        simp at h
      · rw [if_neg hk] at h
        rw [dictInsert, if_neg hk, ih (by simp [containsKey, h])]
        rfl

theorem containsKey_append_single {α : Type} (kvs : List (Str × α)) (k k' : Str) (v : α) :
    containsKey (kvs ++ [(k, v)]) k'
      = (containsKey kvs k' || (k = k' : Bool)) := by
  induction kvs with
  | nil => by_cases h : k = k' <;> simp [containsKey, lookupAssoc, h]
  | cons p rest ih =>
      obtain ⟨k1, v1⟩ := p
      by_cases hk : k1 = k'
      · simp [containsKey, lookupAssoc, hk]
      · simp only [List.cons_append, containsKey, lookupAssoc, if_neg hk]
        exact ih

/-- An absent key differs from every key of the list. -/
theorem keyAbsent_ne (k : Str) : ∀ (ps : List (Str × JVal)) (p : Str × JVal),
    keyAbsent k ps = true → p ∈ ps → k ≠ p.1
  | [], p, _, hp => absurd hp (List.not_mem_nil p)
  | (k', v') :: r, p, hka, hp => by
      simp only [keyAbsent, Bool.and_eq_true, decide_eq_true_eq] at hka
      rcases List.mem_cons.mp hp with h' | h'
      · subst h'
        exact fun he => hka.1 he.symm
      · exact keyAbsent_ne k r p hka.2 h'

/-- Folding fresh, pairwise-distinct pairs into a dict appends them all. -/
theorem foldInsert_fresh : ∀ (ps : List (Str × JVal)) (acc : List (Str × JVal)),
    uniqPairsB ps = true → (∀ p ∈ ps, containsKey acc p.1 = false) →
    ps.foldl (fun d p => dictInsert d p.1 p.2) acc = acc ++ ps
  | [], acc, _, _ => by simp
  | (k, v) :: rest, acc, hu, hf => by
      simp only [uniqPairsB, Bool.and_eq_true] at hu
      obtain ⟨⟨hka, _⟩, hrest⟩ := hu
      have hacc : containsKey acc k = false := hf (k, v) (List.mem_cons_self _ _)
      rw [List.foldl_cons]
      show List.foldl (fun d p => dictInsert d p.1 p.2) (dictInsert acc k v) rest = _
      rw [dictInsert_absent acc k v hacc]
      rw [foldInsert_fresh rest (acc ++ [(k, v)]) hrest ?_]
      · simp
      · intro p hp
        rw [containsKey_append_single]
        have h1 : containsKey acc p.1 = false := hf p (List.mem_cons_of_mem _ hp)
        have h2 : k ≠ p.1 := keyAbsent_ne k rest p hka hp
        simp [h1, h2]

/-- On a recursively duplicate-free pair list the parser's dict fold is
the identity. -/
theorem foldInsert_id (ps : List (Str × JVal)) (hu : uniqPairsB ps = true) :
    ps.foldl (fun d p => dictInsert d p.1 p.2) [] = ps := by
  rw [foldInsert_fresh ps [] hu (fun p _ => rfl)]
  rfl

theorem keyAbsent_dictInsert (k' k : Str) (v : JVal) :
    ∀ r : List (Str × JVal), k' ≠ k → keyAbsent k' r = true →
    keyAbsent k' (dictInsert r k v) = true
  | [], hne, _ => by simp [dictInsert, keyAbsent, hne, Ne.symm hne]
  | (k1, v1) :: rest, hne, ha => by
      simp only [keyAbsent, Bool.and_eq_true, decide_eq_true_eq] at ha
      by_cases hk : k1 = k
      · simp [dictInsert, hk, keyAbsent, ha.1, ha.2, hk ▸ ha.1]
      · simp only [dictInsert, if_neg hk, keyAbsent, Bool.and_eq_true, decide_eq_true_eq]
        exact ⟨ha.1, keyAbsent_dictInsert k' k v rest hne ha.2⟩

theorem dictInsert_uniqPairs (k : Str) (v : JVal) :
    ∀ acc : List (Str × JVal), uniqPairsB acc = true → uniqB v = true →
    uniqPairsB (dictInsert acc k v) = true
  | [], _, hv => by simp [dictInsert, uniqPairsB, keyAbsent, hv]
  | (k1, v1) :: rest, hu, hv => by
      simp only [uniqPairsB, Bool.and_eq_true] at hu
      by_cases hk : k1 = k
      · subst hk
        simp only [dictInsert, if_pos rfl, uniqPairsB, Bool.and_eq_true]
        exact ⟨⟨hu.1.1, hv⟩, hu.2⟩
      · simp only [dictInsert, if_neg hk, uniqPairsB, Bool.and_eq_true]
        refine ⟨⟨keyAbsent_dictInsert k1 k v rest hk hu.1.1, hu.1.2⟩, ?_⟩
        exact dictInsert_uniqPairs k v rest hu.2 hv

theorem foldInsert_uniq : ∀ (ps acc : List (Str × JVal)),
    (∀ p ∈ ps, uniqB p.2 = true) → uniqPairsB acc = true →
    uniqPairsB (ps.foldl (fun d p => dictInsert d p.1 p.2) acc) = true
  | [], acc, _, hacc => hacc
  | (k, v) :: rest, acc, hps, hacc => by
      rw [List.foldl_cons]
      exact foldInsert_uniq rest (dictInsert acc k v)
        (fun p hp => hps p (List.mem_cons_of_mem _ hp))
        (dictInsert_uniqPairs k v acc hacc (hps (k, v) (List.mem_cons_self _ _)))

set_option maxHeartbeats 2000000 in
/-- Whatever the parser accepts is recursively duplicate-free (parsed
objects are built by dict insertion, which keeps keys unique). -/
theorem parse_uniq : ∀ fu : Nat,
    (∀ cs v r, parseVal fu cs = some (v, r) → uniqB v = true)
    ∧ (∀ cs xs r, parseItems fu cs = some (xs, r) → uniqItemsB xs = true)
    ∧ (∀ cs ps r, parseMembers fu cs = some (ps, r) → ∀ p ∈ ps, uniqB p.2 = true)
  | 0 => by
      refine ⟨?_, ?_, ?_⟩ <;> intro _ _ _ h <;> cases h
  | fu + 1 => by
      obtain ⟨ihV, ihI, ihM⟩ := parse_uniq fu
      refine ⟨?_, ?_, ?_⟩
      · intro cs v r h
        unfold parseVal at h
        (repeat' split at h) <;>
          first
            | (cases h; done)
            | (simp only [Option.some.injEq, Prod.mk.injEq] at h
               obtain ⟨hv, hr⟩ := h
               subst hv
               first
                 | rfl
                 | (simp only [uniqB]
                    exact ihI _ _ _ (by assumption))
                 | (simp only [uniqB]
                    exact foldInsert_uniq _ [] (ihM _ _ _ (by assumption)) rfl))
      · intro cs xs r h
        unfold parseItems at h
        (repeat' split at h) <;>
          first
            | (cases h; done)
            | (simp only [Option.some.injEq, Prod.mk.injEq] at h
               obtain ⟨hv, hr⟩ := h
               subst hv
               simp only [uniqItemsB, Bool.and_eq_true]
               first
                 | exact ⟨ihV _ _ _ (by assumption), ihI _ _ _ (by assumption)⟩
                 | exact ⟨ihV _ _ _ (by assumption), trivial⟩)
      · intro cs ps r h
        unfold parseMembers at h
        (repeat' split at h) <;>
          first
            | (cases h; done)
            | (simp only [Option.some.injEq, Prod.mk.injEq] at h
               obtain ⟨hv, hr⟩ := h
               subst hv
               intro p hp
               rcases List.mem_cons.mp hp with h' | h'
               · subst h'
                 exact ihV _ _ _ (by assumption)
               · first
                   | exact ihM _ _ _ (by assumption) p h'
                   | cases h')

/-! ### Parser inversion: branch selection -/

theorem pneed_pos : ∀ v : JVal, 1 ≤ pneed v
  | .null | .bool _ | .num _ | .str _ => le_refl 1
  | .arr _ => by simp [pneed]
  | .obj _ => by simp [pneed]

theorem ineed_pos (x : JVal) (xs : List JVal) : 1 ≤ ineed (x :: xs) := by
  simp only [ineed]
  omega

theorem mneed_pos (p : Str × JVal) (ps : List (Str × JVal)) : 1 ≤ mneed (p :: ps) := by
  obtain ⟨k, v⟩ := p
  simp only [mneed]
  omega

theorem wsDrop_ws_cons {c : Char} (s : Str) (h : isJsonWs c = true) :
    wsDrop (c :: s) = wsDrop s := by
  simp [wsDrop, h]

/-- `parseVal` only looks at its input through `wsDrop`. -/
theorem parseVal_congr (fu : Nat) (a b : Str) (h : wsDrop a = wsDrop b) :
    parseVal (fu + 1) a = parseVal (fu + 1) b := by
  unfold parseVal
  rw [h]

/-- `parseMembers` only looks at its input through `wsDrop`. -/
theorem parseMembers_congr (fu : Nat) (a b : Str) (h : wsDrop a = wsDrop b) :
    parseMembers (fu + 1) a = parseMembers (fu + 1) b := by
  unfold parseMembers
  rw [h]

example (fu : Nat) (r : Str) :
    parseVal (fu + 1) (dumpsCompact .null ++ r) = some (.null, r) := rfl
example (fu : Nat) (r : Str) :
    parseVal (fu + 1) (dumpsCompact (.bool true) ++ r) = some (.bool true, r) := rfl
example (fu : Nat) (r : Str) :
    parseVal (fu + 1) (dumpsCompact (.bool false) ++ r) = some (.bool false, r) := rfl
example (fu : Nat) (r : Str) :
    parseVal (fu + 1) (dumpsCompact (.arr []) ++ r) = some (.arr [], r) := rfl
example (fu : Nat) (r : Str) :
    parseVal (fu + 1) (dumpsCompact (.obj []) ++ r) = some (.obj [], r) := rfl

/-- A digit-headed all-digit run parses as the integer literal it spells. -/
theorem parseVal_digits (fu : Nat) (c : Char) (t r : Str)
    (hds : ∀ x ∈ c :: t, isDig x = true) (hr : noDigB r = true) :
    parseVal (fu + 1) (c :: (t ++ r)) = some (.num (digsVal (c :: t) : Int), r) := by
  have hc : isDig c = true := hds c (List.mem_cons_self _ _)
  obtain ⟨hbr, hbc, hn, ht, hf, hq, hlb, hlc, hm, hcm⟩ := dig_ne_chars hc
  unfold parseVal
  rw [wsDrop_cons_noWs _ (dig_not_ws hc)]
  have hrun : digsTake (c :: (t ++ r)) = (c :: t, r) := by
    have := digsTake_run (c :: t) hds r hr
    simpa using this
  split
  · rename_i heq
    exact absurd (List.head_eq_of_cons_eq heq) hn
  · rename_i heq
    exact absurd (List.head_eq_of_cons_eq heq) ht
  · rename_i heq
    exact absurd (List.head_eq_of_cons_eq heq) hf
  · rename_i heq
    exact absurd (List.head_eq_of_cons_eq heq) hq
  · rename_i heq
    exact absurd (List.head_eq_of_cons_eq heq) hlb
  · rename_i heq
    exact absurd (List.head_eq_of_cons_eq heq) hlc
  · rename_i heq
    exact absurd (List.head_eq_of_cons_eq heq) hm
  · rename_i heq
    injection heq with h1 h2
    subst h1
    subst h2
    rw [if_pos hc, hrun]
  · rename_i heq
    cases heq

/-- A minus sign followed by an all-digit run parses as the negated literal. -/
theorem parseVal_neg (fu : Nat) (c : Char) (t r : Str)
    (hds : ∀ x ∈ c :: t, isDig x = true) (hr : noDigB r = true) :
    parseVal (fu + 1) ('-' :: (c :: t ++ r))
      = some (.num (-(digsVal (c :: t) : Int)), r) := by
  have hrun : digsTake (c :: t ++ r) = (c :: t, r) := digsTake_run (c :: t) hds r hr
  unfold parseVal
  rw [show wsDrop ('-' :: (c :: t ++ r)) = '-' :: (c :: t ++ r) from
    wsDrop_cons_noWs _ (by decide)]
  simp only [hrun]

/-- Every serialized JSON int parses back to itself. -/
theorem parseVal_intDump (fu : Nat) (n : Int) (r : Str) (hr : noDigB r = true) :
    parseVal (fu + 1) (intDump n ++ r) = some (.num n, r) := by
  obtain ⟨c, t, hct, hcd⟩ := natDigs_cons n.natAbs
  have hds : ∀ x ∈ c :: t, isDig x = true := by
    intro x hx
    exact natDigs_digits n.natAbs x (hct ▸ hx)
  unfold intDump
  by_cases hn : n < 0
  · rw [if_pos hn, hct]
    rw [show ('-' :: (c :: t)) ++ r = '-' :: (c :: t ++ r) from rfl]
    rw [parseVal_neg fu c t r hds hr]
    have h1 : digsVal (c :: t) = n.natAbs := hct ▸ digsVal_natDigs n.natAbs
    rw [h1]
    have h2 : (-(n.natAbs : Int)) = n := by omega
    rw [h2]
  · rw [if_neg hn, hct]
    rw [show (c :: t) ++ r = c :: (t ++ r) from rfl]
    rw [parseVal_digits fu c t r hds hr]
    have h1 : digsVal (c :: t) = n.natAbs := hct ▸ digsVal_natDigs n.natAbs
    rw [h1]
    have h2 : ((n.natAbs : Int)) = n := by omega
    rw [h2]

/-- A nonempty item list's serialization starts like a value. -/
theorem dumpsItems_head (x : JVal) (xs : List JVal) :
    ∃ c t, dumpsItems (x :: xs) = c :: t ∧ isJsonWs c = false ∧ c ≠ ']' ∧ c ≠ '}' := by
  obtain ⟨c, t, hct, h1, h2, h3⟩ := dumpsCompact_head x
  cases xs with
  | nil => exact ⟨c, t, hct, h1, h2, h3⟩
  | cons y rest =>
      refine ⟨c, t ++ ',' :: dumpsItems (y :: rest), ?_, h1, h2, h3⟩
      rw [show dumpsItems (x :: y :: rest)
          = dumpsCompact x ++ ',' :: dumpsItems (y :: rest) from rfl, hct]
      rfl

/-- A nonempty member list's serialization starts with a quote. -/
theorem dumpsPairs_cons (k : Str) (v : JVal) (ps : List (Str × JVal)) :
    ∃ X, dumpsPairs ((k, v) :: ps) = '"' :: X := by
  cases ps with
  | nil => exact ⟨escStr k ++ '"' :: (':' :: dumpsCompact v), by simp [dumpsPairs, strDump]⟩
  | cons p rest =>
      exact ⟨escStr k ++ '"' :: (':' :: (dumpsCompact v ++ ',' :: dumpsPairs (p :: rest))),
        by simp [dumpsPairs, strDump]⟩

/-- Values stored in a recursively duplicate-free pair list are themselves
duplicate-free. -/
theorem uniqPairs_mem : ∀ (ps : List (Str × JVal)), uniqPairsB ps = true →
    ∀ p ∈ ps, uniqB p.2 = true
  | [], _, p, hp => absurd hp (List.not_mem_nil p)
  | (k, v) :: rest, hu, p, hp => by
      simp only [uniqPairsB, Bool.and_eq_true] at hu
      rcases List.mem_cons.mp hp with h | h
      · subst h
        exact hu.1.2
      · exact uniqPairs_mem rest hu.2 p h

set_option maxHeartbeats 1000000 in
/-- The parser inverts the compact serializer on recursively duplicate-free
values, given enough fuel and a remainder that cannot extend a digit run. -/
theorem dump_inv : ∀ fu : Nat,
    (∀ v r, pneed v ≤ fu → noDigB r = true → uniqB v = true →
       parseVal fu (dumpsCompact v ++ r) = some (v, r))
    ∧ (∀ xs r, ineed xs ≤ fu → xs ≠ [] → uniqItemsB xs = true →
       parseItems fu (dumpsItems xs ++ ']' :: r) = some (xs, r))
    ∧ (∀ ps r, mneed ps ≤ fu → ps ≠ [] → (∀ p ∈ ps, uniqB p.2 = true) →
       parseMembers fu (dumpsPairs ps ++ '}' :: r) = some (ps, r))
  | 0 => by
      refine ⟨?_, ?_, ?_⟩
      · intro v r hf _ _
        exact absurd hf (by have := pneed_pos v; omega)
      · intro xs r hf hne _
        cases xs with
        | nil => exact absurd rfl hne
        | cons x t => exact absurd hf (by have := ineed_pos x t; omega)
      · intro ps r hf hne _
        cases ps with
        | nil => exact absurd rfl hne
        | cons p t => exact absurd hf (by have := mneed_pos p t; omega)
  | fu + 1 => by
      obtain ⟨ihV, ihI, ihM⟩ := dump_inv fu
      refine ⟨?_, ?_, ?_⟩
      · intro v r hf hr hu
        cases v with
        | null => rfl
        | bool b => cases b <;> rfl
        | num n => exact parseVal_intDump fu n r hr
        | str s =>
            show parseVal (fu + 1) ('"' :: ((escStr s ++ ['"']) ++ r)) = some (.str s, r)
            unfold parseVal
            rw [wsDrop_cons_noWs _ (by decide)]
            show (match strBody [] ((escStr s ++ ['"']) ++ r) with
                  | some (s, r') => some (JVal.str s, r')
                  | none => none) = some (JVal.str s, r)
            rw [show (escStr s ++ ['"']) ++ r = escStr s ++ '"' :: r by simp]
            rw [strBody_escStr s [] r]
            rfl
        | arr xs =>
            cases xs with
            | nil => rfl
            | cons x ys =>
                obtain ⟨c, t, hct, hws, hbr, hbc⟩ := dumpsItems_head x ys
                have hI : ineed (x :: ys) ≤ fu := by
                  simp only [pneed] at hf
                  omega
                have huI : uniqItemsB (x :: ys) = true := by
                  simpa [uniqB] using hu
                show parseVal (fu + 1)
                    ('[' :: ((dumpsItems (x :: ys) ++ [']']) ++ r)) = some (.arr (x :: ys), r)
                unfold parseVal
                rw [wsDrop_cons_noWs _ (by decide)]
                show (match wsDrop ((dumpsItems (x :: ys) ++ [']']) ++ r) with
                      | ']' :: r' => some (JVal.arr [], r')
                      | other =>
                          match parseItems fu other with
                          | some (xs, r') => some (JVal.arr xs, r')
                          | none => none) = some (JVal.arr (x :: ys), r)
                rw [show (dumpsItems (x :: ys) ++ [']']) ++ r
                    = dumpsItems (x :: ys) ++ ']' :: r by simp]
                rw [hct, List.cons_append, wsDrop_cons_noWs _ hws]
                split
                · rename_i heq
                  exact absurd (List.head_eq_of_cons_eq heq) hbr
                · rw [← List.cons_append, ← hct, ihI (x :: ys) r hI (by simp) huI]
        | obj kvs =>
            cases kvs with
            | nil => rfl
            | cons p qs =>
                obtain ⟨k, v⟩ := p
                obtain ⟨X, hX⟩ := dumpsPairs_cons k v qs
                have hM : mneed ((k, v) :: qs) ≤ fu := by
                  simp only [pneed] at hf
                  omega
                have huP : uniqPairsB ((k, v) :: qs) = true := by
                  simpa [uniqB] using hu
                show parseVal (fu + 1)
                    ('{' :: ((dumpsPairs ((k, v) :: qs) ++ ['}']) ++ r))
                      = some (.obj ((k, v) :: qs), r)
                unfold parseVal
                rw [wsDrop_cons_noWs _ (by decide)]
                show (match wsDrop ((dumpsPairs ((k, v) :: qs) ++ ['}']) ++ r) with
                      | '}' :: r' => some (JVal.obj [], r')
                      | other =>
                          match parseMembers fu other with
                          | some (ps, r') =>
                              some (JVal.obj (ps.foldl (fun d p => dictInsert d p.1 p.2) []), r')
                          | none => none) = some (JVal.obj ((k, v) :: qs), r)
                rw [show (dumpsPairs ((k, v) :: qs) ++ ['}']) ++ r
                    = dumpsPairs ((k, v) :: qs) ++ '}' :: r by simp]
                rw [hX, List.cons_append, wsDrop_cons_noWs _ (by decide)]
                show (match parseMembers fu ('"' :: (X ++ '}' :: r)) with
                      | some (ps, r') =>
                          some (JVal.obj (ps.foldl (fun d p => dictInsert d p.1 p.2) []), r')
                      | none => none) = some (JVal.obj ((k, v) :: qs), r)
                rw [← List.cons_append, ← hX,
                  ihM ((k, v) :: qs) r hM (by simp) (uniqPairs_mem _ huP)]
                show some (JVal.obj (((k, v) :: qs).foldl (fun d p => dictInsert d p.1 p.2) []), r)
                    = some (JVal.obj ((k, v) :: qs), r)
                rw [foldInsert_id ((k, v) :: qs) huP]
      · intro xs r hf hne hu
        cases xs with
        | nil => exact absurd rfl hne
        | cons x ys =>
            have hx : pneed x ≤ fu := by
              simp only [ineed] at hf
              omega
            have hux : uniqB x = true := by
              simp only [uniqItemsB, Bool.and_eq_true] at hu
              exact hu.1
            cases ys with
            | nil =>
                unfold parseItems
                show (match parseVal fu (dumpsCompact x ++ ']' :: r) with
                  | none => none
                  | some (v, r) =>
                      match wsDrop r with
                      | ',' :: r' =>
                          (match parseItems fu r' with
                           | some (vs, r'') => some (v :: vs, r'')
                           | none => none)
                      | ']' :: r' => some ([v], r')
                      | _ => none) = some ([x], r)
                rw [ihV x (']' :: r) hx rfl hux]
                rfl
            | cons y rest =>
                have hI : ineed (y :: rest) ≤ fu := by
                  simp only [ineed] at hf ⊢
                  omega
                have huI : uniqItemsB (y :: rest) = true := by
                  simp only [uniqItemsB, Bool.and_eq_true] at hu
                  simp only [uniqItemsB, Bool.and_eq_true]
                  exact hu.2
                unfold parseItems
                show (match parseVal fu
                      ((dumpsCompact x ++ ',' :: dumpsItems (y :: rest)) ++ ']' :: r) with
                  | none => none
                  | some (v, r) =>
                      match wsDrop r with
                      | ',' :: r' =>
                          (match parseItems fu r' with
                           | some (vs, r'') => some (v :: vs, r'')
                           | none => none)
                      | ']' :: r' => some ([v], r')
                      | _ => none) = some (x :: y :: rest, r)
                rw [show (dumpsCompact x ++ ',' :: dumpsItems (y :: rest)) ++ ']' :: r
                    = dumpsCompact x ++ ',' :: (dumpsItems (y :: rest) ++ ']' :: r) by simp]
                rw [ihV x (',' :: (dumpsItems (y :: rest) ++ ']' :: r)) hx rfl hux]
                show (match parseItems fu (dumpsItems (y :: rest) ++ ']' :: r) with
                      | some (vs, r'') => some (x :: vs, r'')
                      | none => none) = some (x :: y :: rest, r)
                rw [ihI (y :: rest) r hI (by simp) huI]
      · intro ps r hf hne hu
        cases ps with
        | nil => exact absurd rfl hne
        | cons p qs =>
            obtain ⟨k, v⟩ := p
            have hv : pneed v ≤ fu := by
              simp only [mneed] at hf
              omega
            have huv : uniqB v = true := hu (k, v) (List.mem_cons_self _ _)
            cases qs with
            | nil =>
                have hsh : dumpsPairs [(k, v)] ++ '}' :: r
                    = '"' :: (escStr k ++ '"' :: (':' :: (dumpsCompact v ++ '}' :: r))) := by
                  simp [dumpsPairs, strDump]
                rw [hsh]
                unfold parseMembers
                rw [wsDrop_cons_noWs _ (by decide)]
                show (match strBody [] (escStr k ++ '"' :: (':' :: (dumpsCompact v ++ '}' :: r))) with
                      | none => none
                      | some (k, r1) =>
                          match wsDrop r1 with
                          | ':' :: r2 =>
                              (match parseVal fu r2 with
                               | none => none
                               | some (v, r3) =>
                                   match wsDrop r3 with
                                   | ',' :: r4 =>
                                       (match parseMembers fu r4 with
                                        | some (ps, r5) => some ((k, v) :: ps, r5)
                                        | none => none)
                                   | '}' :: r4 => some ([(k, v)], r4)
                                   | _ => none)
                          | _ => none) = some ([(k, v)], r)
                rw [strBody_escStr k [] _]
                show (match parseVal fu (dumpsCompact v ++ '}' :: r) with
                      | none => none
                      | some (v, r3) =>
                          match wsDrop r3 with
                          | ',' :: r4 =>
                              (match parseMembers fu r4 with
                               | some (ps, r5) => some (([].reverse ++ k, v) :: ps, r5)
                               | none => none)
                          | '}' :: r4 => some ([([].reverse ++ k, v)], r4)
                          | _ => none) = some ([(k, v)], r)
                rw [ihV v ('}' :: r) hv rfl huv]
                rfl
            | cons q rest =>
                obtain ⟨k2, v2⟩ := q
                have hM : mneed ((k2, v2) :: rest) ≤ fu := by
                  simp only [mneed] at hf ⊢
                  omega
                have huM : ∀ p ∈ (k2, v2) :: rest, uniqB p.2 = true :=
                  fun p hp => hu p (List.mem_cons_of_mem _ hp)
                have hsh : dumpsPairs ((k, v) :: (k2, v2) :: rest) ++ '}' :: r
                    = '"' :: (escStr k ++ '"' :: (':' :: (dumpsCompact v
                        ++ ',' :: (dumpsPairs ((k2, v2) :: rest) ++ '}' :: r)))) := by
                  simp [dumpsPairs, strDump]
                rw [hsh]
                unfold parseMembers
                rw [wsDrop_cons_noWs _ (by decide)]
                show (match strBody [] (escStr k ++ '"' :: (':' :: (dumpsCompact v
                        ++ ',' :: (dumpsPairs ((k2, v2) :: rest) ++ '}' :: r)))) with
                      | none => none
                      | some (k, r1) =>
                          match wsDrop r1 with
                          | ':' :: r2 =>
                              (match parseVal fu r2 with
                               | none => none
                               | some (v, r3) =>
                                   match wsDrop r3 with
                                   | ',' :: r4 =>
                                       (match parseMembers fu r4 with
                                        | some (ps, r5) => some ((k, v) :: ps, r5)
                                        | none => none)
                                   | '}' :: r4 => some ([(k, v)], r4)
                                   | _ => none)
                          | _ => none) = some ((k, v) :: (k2, v2) :: rest, r)
                rw [strBody_escStr k [] _]
                show (match parseVal fu (dumpsCompact v
                        ++ ',' :: (dumpsPairs ((k2, v2) :: rest) ++ '}' :: r)) with
                      | none => none
                      | some (v, r3) =>
                          match wsDrop r3 with
                          | ',' :: r4 =>
                              (match parseMembers fu r4 with
                               | some (ps, r5) => some (([].reverse ++ k, v) :: ps, r5)
                               | none => none)
                          | '}' :: r4 => some ([([].reverse ++ k, v)], r4)
                          | _ => none) = some ((k, v) :: (k2, v2) :: rest, r)
                rw [ihV v (',' :: (dumpsPairs ((k2, v2) :: rest) ++ '}' :: r)) hv rfl huv]
                show (match parseMembers fu (dumpsPairs ((k2, v2) :: rest) ++ '}' :: r) with
                      | some (ps, r5) => some (([].reverse ++ k, v) :: ps, r5)
                      | none => none) = some ((k, v) :: (k2, v2) :: rest, r)
                rw [ihM ((k2, v2) :: rest) r hM (by simp) huM]
                rfl

/-- `parseVal` is insensitive to the `wsDrop`-class of its input. -/
theorem parseVal_congr2 (fu : Nat) (a b : Str) (h : wsDrop a = wsDrop b) :
    parseVal fu a = parseVal fu b := by
  cases fu with
  | zero => rfl
  | succ fu =>
      unfold parseVal
      rw [h]

/-- `parseMembers` is insensitive to the `wsDrop`-class of its input. -/
theorem parseMembers_congr2 (fu : Nat) (a b : Str) (h : wsDrop a = wsDrop b) :
    parseMembers fu a = parseMembers fu b := by
  cases fu with
  | zero => rfl
  | succ fu =>
      unfold parseMembers
      rw [h]

/-- A nonempty canonical member list: indentation, then a quoted key. -/
theorem fusedPairs_cons (d : Nat) (k : Str) (v : JVal) (ps : List (Str × JVal)) :
    ∃ X, fusedPairs d ((k, v) :: ps) = indSp (d + 1) ++ '"' :: X := by
  cases ps with
  | nil =>
      exact ⟨escStr k ++ '"' :: (':' :: ' ' :: fusedDump (d + 1) v),
        by simp [fusedPairs, strDump]⟩
  | cons q rest =>
      exact ⟨escStr k ++ '"' :: (':' :: ' ' :: (fusedDump (d + 1) v
          ++ ',' :: '\n' :: fusedPairs d (q :: rest))),
        by simp [fusedPairs, strDump]⟩

set_option maxHeartbeats 1000000 in
/-- The parser also inverts the canonical serialization (objects indented,
arrays compact) on recursively duplicate-free values. -/
theorem fused_inv : ∀ fu : Nat,
    (∀ d v r, pneed v ≤ fu → noDigB r = true → uniqB v = true →
       parseVal fu (fusedDump d v ++ r) = some (v, r))
    ∧ (∀ d ps r, mneed ps ≤ fu → ps ≠ [] → (∀ p ∈ ps, uniqB p.2 = true) →
       parseMembers fu (fusedPairs d ps ++ '\n' :: (indSp d ++ '}' :: r)) = some (ps, r))
  | 0 => by
      refine ⟨?_, ?_⟩
      · intro d v r hf _ _
        exact absurd hf (by have := pneed_pos v; omega)
      · intro d ps r hf hne _
        cases ps with
        | nil => exact absurd rfl hne
        | cons p t => exact absurd hf (by have := mneed_pos p t; omega)
  | fu + 1 => by
      obtain ⟨ihV, ihM⟩ := fused_inv fu
      refine ⟨?_, ?_⟩
      · intro d v r hf hr hu
        cases v with
        | null => exact (dump_inv (fu + 1)).1 .null r hf hr hu
        | bool b => cases b <;> exact (dump_inv (fu + 1)).1 _ r hf hr hu
        | num n => exact (dump_inv (fu + 1)).1 (.num n) r hf hr hu
        | str s => exact (dump_inv (fu + 1)).1 (.str s) r hf hr hu
        | arr xs => exact (dump_inv (fu + 1)).1 (.arr xs) r hf hr hu
        | obj kvs =>
            cases kvs with
            | nil => exact (dump_inv (fu + 1)).1 (.obj []) r hf hr hu
            | cons p qs =>
                obtain ⟨k, v⟩ := p
                obtain ⟨X, hX⟩ := fusedPairs_cons d k v qs
                have hM : mneed ((k, v) :: qs) ≤ fu := by
                  simp only [pneed] at hf
                  omega
                have huP : uniqPairsB ((k, v) :: qs) = true := by
                  simpa [uniqB] using hu
                show parseVal (fu + 1)
                    ('{' :: ('\n' :: ((fusedPairs d ((k, v) :: qs)
                        ++ '\n' :: (indSp d ++ ['}'])) ++ r)))
                      = some (.obj ((k, v) :: qs), r)
                unfold parseVal
                rw [wsDrop_cons_noWs _ (by decide)]
                show (match wsDrop ('\n' :: ((fusedPairs d ((k, v) :: qs)
                        ++ '\n' :: (indSp d ++ ['}'])) ++ r)) with
                      | '}' :: r' => some (JVal.obj [], r')
                      | other =>
                          match parseMembers fu other with
                          | some (ps, r') =>
                              some (JVal.obj (ps.foldl (fun d p => dictInsert d p.1 p.2) []), r')
                          | none => none) = some (JVal.obj ((k, v) :: qs), r)
                rw [wsDrop_newline]
                rw [show (fusedPairs d ((k, v) :: qs) ++ '\n' :: (indSp d ++ ['}'])) ++ r
                    = fusedPairs d ((k, v) :: qs) ++ '\n' :: (indSp d ++ '}' :: r) by simp]
                rw [hX, List.append_assoc, wsDrop_indSp, List.cons_append,
                  wsDrop_cons_noWs _ (by decide)]
                show (match parseMembers fu
                        ('"' :: (X ++ '\n' :: (indSp d ++ '}' :: r))) with
                      | some (ps, r') =>
                          some (JVal.obj (ps.foldl (fun d p => dictInsert d p.1 p.2) []), r')
                      | none => none) = some (JVal.obj ((k, v) :: qs), r)
                rw [show parseMembers fu ('"' :: (X ++ '\n' :: (indSp d ++ '}' :: r)))
                    = parseMembers fu (fusedPairs d ((k, v) :: qs)
                        ++ '\n' :: (indSp d ++ '}' :: r)) from
                  parseMembers_congr2 fu _ _ (by
                    rw [hX, List.append_assoc, wsDrop_indSp, List.cons_append])]
                rw [ihM d ((k, v) :: qs) r hM (by simp) (uniqPairs_mem _ huP)]
                show some (JVal.obj (((k, v) :: qs).foldl (fun d p => dictInsert d p.1 p.2) []), r)
                    = some (JVal.obj ((k, v) :: qs), r)
                rw [foldInsert_id ((k, v) :: qs) huP]
      · intro d ps r hf hne hu
        cases ps with
        | nil => exact absurd rfl hne
        | cons p qs =>
            obtain ⟨k, v⟩ := p
            have hv : pneed v ≤ fu := by
              simp only [mneed] at hf
              omega
            have huv : uniqB v = true := hu (k, v) (List.mem_cons_self _ _)
            cases qs with
            | nil =>
                have hsh : fusedPairs d [(k, v)] ++ '\n' :: (indSp d ++ '}' :: r)
                    = indSp (d + 1) ++ ('"' :: (escStr k ++ '"' :: (':' :: ' '
                        :: (fusedDump (d + 1) v ++ '\n' :: (indSp d ++ '}' :: r))))) := by
                  simp [fusedPairs, strDump]
                rw [hsh]
                unfold parseMembers
                rw [wsDrop_indSp, wsDrop_cons_noWs _ (by decide)]
                show (match strBody [] (escStr k ++ '"' :: (':' :: ' '
                        :: (fusedDump (d + 1) v ++ '\n' :: (indSp d ++ '}' :: r)))) with
                      | none => none
                      | some (k, r1) =>
                          match wsDrop r1 with
                          | ':' :: r2 =>
                              (match parseVal fu r2 with
                               | none => none
                               | some (v, r3) =>
                                   match wsDrop r3 with
                                   | ',' :: r4 =>
                                       (match parseMembers fu r4 with
                                        | some (ps, r5) => some ((k, v) :: ps, r5)
                                        | none => none)
                                   | '}' :: r4 => some ([(k, v)], r4)
                                   | _ => none)
                          | _ => none) = some ([(k, v)], r)
                rw [strBody_escStr k [] _]
                show (match parseVal fu (' ' :: (fusedDump (d + 1) v
                        ++ '\n' :: (indSp d ++ '}' :: r))) with
                      | none => none
                      | some (v, r3) =>
                          match wsDrop r3 with
                          | ',' :: r4 =>
                              (match parseMembers fu r4 with
                               | some (ps, r5) => some (([].reverse ++ k, v) :: ps, r5)
                               | none => none)
                          | '}' :: r4 => some ([([].reverse ++ k, v)], r4)
                          | _ => none) = some ([(k, v)], r)
                rw [parseVal_congr2 fu _ _ (wsDrop_ws_cons _ (by decide))]
                rw [ihV (d + 1) v ('\n' :: (indSp d ++ '}' :: r)) hv rfl huv]
                show (match wsDrop ('\n' :: (indSp d ++ '}' :: r)) with
                      | ',' :: r4 =>
                          (match parseMembers fu r4 with
                           | some (ps, r5) => some (([].reverse ++ k, v) :: ps, r5)
                           | none => none)
                      | '}' :: r4 => some ([([].reverse ++ k, v)], r4)
                      | _ => none) = some ([(k, v)], r)
                rw [wsDrop_newline, wsDrop_indSp, wsDrop_cons_noWs _ (by decide)]
                rfl
            | cons q rest =>
                obtain ⟨k2, v2⟩ := q
                have hM : mneed ((k2, v2) :: rest) ≤ fu := by
                  simp only [mneed] at hf ⊢
                  omega
                have huM : ∀ p ∈ (k2, v2) :: rest, uniqB p.2 = true :=
                  fun p hp => hu p (List.mem_cons_of_mem _ hp)
                have hsh : fusedPairs d ((k, v) :: (k2, v2) :: rest)
                        ++ '\n' :: (indSp d ++ '}' :: r)
                    = indSp (d + 1) ++ ('"' :: (escStr k ++ '"' :: (':' :: ' '
                        :: (fusedDump (d + 1) v ++ ',' :: ('\n'
                          :: (fusedPairs d ((k2, v2) :: rest)
                            ++ '\n' :: (indSp d ++ '}' :: r))))))) := by
                  simp [fusedPairs, strDump]
                rw [hsh]
                unfold parseMembers
                rw [wsDrop_indSp, wsDrop_cons_noWs _ (by decide)]
                show (match strBody [] (escStr k ++ '"' :: (':' :: ' '
                        :: (fusedDump (d + 1) v ++ ',' :: ('\n'
                          :: (fusedPairs d ((k2, v2) :: rest)
                            ++ '\n' :: (indSp d ++ '}' :: r)))))) with
                      | none => none
                      | some (k, r1) =>
                          match wsDrop r1 with
                          | ':' :: r2 =>
                              (match parseVal fu r2 with
                               | none => none
                               | some (v, r3) =>
                                   match wsDrop r3 with
                                   | ',' :: r4 =>
                                       (match parseMembers fu r4 with
                                        | some (ps, r5) => some ((k, v) :: ps, r5)
                                        | none => none)
                                   | '}' :: r4 => some ([(k, v)], r4)
                                   | _ => none)
                          | _ => none) = some ((k, v) :: (k2, v2) :: rest, r)
                rw [strBody_escStr k [] _]
                show (match parseVal fu (' ' :: (fusedDump (d + 1) v ++ ',' :: ('\n'
                          :: (fusedPairs d ((k2, v2) :: rest)
                            ++ '\n' :: (indSp d ++ '}' :: r))))) with
                      | none => none
                      | some (v, r3) =>
                          match wsDrop r3 with
                          | ',' :: r4 =>
                              (match parseMembers fu r4 with
                               | some (ps, r5) => some (([].reverse ++ k, v) :: ps, r5)
                               | none => none)
                          | '}' :: r4 => some ([([].reverse ++ k, v)], r4)
                          | _ => none) = some ((k, v) :: (k2, v2) :: rest, r)
                rw [parseVal_congr2 fu _ _ (wsDrop_ws_cons _ (by decide))]
                rw [ihV (d + 1) v (',' :: ('\n' :: (fusedPairs d ((k2, v2) :: rest)
                    ++ '\n' :: (indSp d ++ '}' :: r)))) hv rfl huv]
                show (match wsDrop (',' :: ('\n' :: (fusedPairs d ((k2, v2) :: rest)
                        ++ '\n' :: (indSp d ++ '}' :: r)))) with
                      | ',' :: r4 =>
                          (match parseMembers fu r4 with
                           | some (ps, r5) => some (([].reverse ++ k, v) :: ps, r5)
                           | none => none)
                      | '}' :: r4 => some ([([].reverse ++ k, v)], r4)
                      | _ => none) = some ((k, v) :: (k2, v2) :: rest, r)
                rw [wsDrop_cons_noWs _ (by decide)]
                show (match parseMembers fu ('\n' :: (fusedPairs d ((k2, v2) :: rest)
                        ++ '\n' :: (indSp d ++ '}' :: r))) with
                      | some (ps, r5) => some (([].reverse ++ k, v) :: ps, r5)
                      | none => none) = some ((k, v) :: (k2, v2) :: rest, r)
                rw [parseMembers_congr2 fu _ _ (wsDrop_newline _)]
                rw [ihM d ((k2, v2) :: rest) r hM (by simp) huM]
                rfl

/-- Whatever `json.loads` accepts is recursively duplicate-free. -/
theorem loads_uniq {s : Str} {v : JVal} (h : loads s = some v) : uniqB v = true := by
  unfold loads at h
  split at h
  · rename_i v' r heq
    split at h
    · injection h with h'
      subst h'
      exact (parse_uniq (s.length + 1)).1 s v' r heq
    · cases h
  · cases h

/-- The canonical text rebuilt: `loads` accepts it and returns the original
value, key order and all. -/
theorem loads_fusedDump (v : JVal) (hu : uniqB v = true) :
    loads (fusedDump 0 v) = some v := by
  have h := (fused_inv ((fusedDump 0 v).length + 1)).1 0 v []
    (le_trans (pneed_le_lenF 0 v) (Nat.le_succ _)) rfl hu
  rw [List.append_nil] at h
  unfold loads
  rw [h]
  rfl

/-- A token of the generated shape that a `\u005f`-escaped string value can
smuggle past the raw-text substring guard. -/
def cexTok : Str := placeholderStem ++ (List.replicate 32 'a' ++ ['_', '_'])

/-- Input text whose parsed value contains `cexTok` as a string scalar even
though the raw text never contains it as a substring. -/
def cexText : Str :=
  ("\x7b\"a\":\"\\u005f_JSON_LIST_PLACEHOLDER_aaaaaaaaaaaaaaaaaaaaaaaaaaaaaaaa__\",\"b\":[1]\x7d").toList

/-- The value `cexText` parses to. -/
def cexVal : JVal :=
  .obj [("a".toList, .str cexTok), ("b".toList, .arr [.num 1])]

/-- What `prettify_json` makes of `cexText`: the placeholder splice hits the
smuggled string occurrence as well as the real placeholder. -/
def cexOut : Str :=
  ("\x7b\n \"a\": [1],\n \"b\": [1]\n\x7d").toList

set_option maxRecDepth 10000 in
/-- **C1, counterexample**: the round-trip claim fails as stated.  The
placeholder guard tests raw-text substring occurrence only, so a token that
appears `\u005f`-escaped inside a string value passes every guard
(`toksOk`), yet the splice step rewrites that string occurrence too:
re-parsing the canonical output yields a value that differs from the parse
of the original input. -/
theorem claim_C1_counterexample :
    toksOk cexText (fun _ => cexTok) 1
    ∧ loads cexText = some cexVal
    ∧ prettify_json (fun _ => cexTok) false cexText = .ok cexOut
    ∧ loads cexOut ≠ some cexVal := by
  refine ⟨?_, ?_, ?_, ?_⟩
  · unfold toksOk
    decide
  · rfl
  · rfl
  · decide

/-- **C1** (amended): for every input that parses as JSON, whenever the
placeholder splice actually rebuilds the canonical serialization (objects
indented, arrays compact) — which the raw-text substring guard does not
always ensure, see the counterexample — `prettify_json` returns that
canonical text, and re-parsing it yields a value deeply equal to the value
parsed from the original input, with object key order preserved. -/
theorem claim_C1_amended (tok : Nat → Str) (nt : Bool) (json_text : Str) (v : JVal)
    (hv : loads json_text = some v)
    (hrec : (xformV tok 0 v).2.2.foldl
        (fun txt p => pyReplace txt ('"' :: (p.1 ++ ['"'])) p.2)
        (dumpsIndent 0 (xformV tok 0 v).1) = fusedDump 0 v) :
    prettify_json tok nt json_text = .ok (fusedDump 0 v)
    ∧ loads (fusedDump 0 v) = some v := by
  constructor
  · unfold prettify_json is_valid_json
    rw [hv]
    rcases hx : xformV tok 0 v with ⟨tv, k2, ph⟩
    rw [hx] at hrec
    dsimp only at hrec
    dsimp only
    rw [hx]
    dsimp only
    rw [hrec]
    rfl
  · exact loads_fusedDump v (loads_uniq hv)

/-- Input for the amended round-trip law at a concrete value. -/
def c1wText : Str := ("\x7b\"a\":[1,2],\"b\":3\x7d").toList

/-- The value `c1wText` parses to. -/
def c1wVal : JVal := .obj [("a".toList, .arr [.num 1, .num 2]), ("b".toList, .num 3)]

theorem claim_C1_amended_witness :
    prettify_json (fun _ => cexTok) false c1wText = .ok (fusedDump 0 c1wVal)
    ∧ loads (fusedDump 0 c1wVal) = some c1wVal :=
  claim_C1_amended (fun _ => cexTok) false c1wText c1wVal (by rfl) (by rfl)
